import Mathlib

/-!
Verification of the EepyOS kernel specification against the source.

Each subsystem named by the claims is shallowly embedded from the Rust
source (`src/heap.rs`, `src/thread.rs`, `src/process.rs`, `src/data.rs`,
`src/mmu.rs`).  Machine integers are modelled as `Nat`; where an overflow
wraps in the source (release-profile Rust) the model takes the value
`% 2^w` explicitly.  Panics (`panic!`, `assert!`, `expect`) are modelled
with `Except String`; functions that cannot panic stay pure.

All state is single-threaded in the model: the kernel under study runs on
one hart, every atomic access in the source is sequentially consistent,
and the per-thread handle mutexes are free whenever the scheduler runs,
so locks always succeed and are dropped from the model.
-/

namespace EepyOS

/-! ## Shared bit-twiddling lemmas -/

/-- `(v &&& (m <<< s)) >>> s = (v >>> s) &&& m`: masking with a shifted mask
and shifting down equals shifting down and masking. -/
theorem and_shl_shr (v m s : Nat) : (v &&& (m <<< s)) >>> s = (v >>> s) &&& m := by
  apply Nat.eq_of_testBit_eq
  intro i
  simp only [Nat.testBit_shiftRight, Nat.testBit_and, Nat.testBit_shiftLeft]
  have h1 : s ≤ s + i := Nat.le_add_right s i
  simp [h1, Nat.add_sub_cancel_left]

/-- Or of values occupying disjoint bit ranges is addition:
if `a` is a multiple of `2^k` and `b < 2^k` then `a ||| b = a + b`. -/
theorem or_eq_add_of_disjoint {a b k : Nat} (ha : a % 2 ^ k = 0) (hb : b < 2 ^ k) :
    a ||| b = a + b := by
  obtain ⟨c, hc⟩ : 2 ^ k ∣ a := Nat.dvd_of_mod_eq_zero ha
  subst hc
  exact (Nat.mul_add_lt_is_or hb c).symm

/-! ## Bump allocator (`src/heap.rs`, `BumpAllocator`) -/

/-- `RAM_BASE` from heap.rs: lowest physical address used for RAM. -/
def RAM_BASE : Nat := 0x40000000

/-- `RAM_LENGTH` from heap.rs: number of bytes available in RAM. -/
def RAM_LENGTH : Nat := 1024 * 1024 * 1024 * 4

/-- `RAM_END` from heap.rs: one byte past the last byte of RAM. -/
def RAM_END : Nat := RAM_BASE + RAM_LENGTH

/-- Rust `pointer::align_offset` for byte pointers: the distance from
`addr` to the next multiple of `align`. -/
def alignOffset (addr align : Nat) : Nat := (align - addr % align) % align

/-- The `BumpAllocator` state: the byte offset from the heap base that has
been permanently claimed (field `offset` behind its mutex). -/
structure BumpState where
  offset : Nat
deriving DecidableEq

/-- One call of `<&BumpAllocator as Allocator>::allocate` (heap.rs 75-100).
`heapBase` is the address returned by the external `get_heap_base`.
Mirrors the source: `aligned = heap_top + heap_top.align_offset(align)`,
`heap_top = aligned + size`, the offset is stored unconditionally, and the
result is `Ok(aligned)` exactly when the new top lies in `RAM_RANGE`
(`RAM_BASE <= heap_top < RAM_END`). -/
def bumpAllocate (heapBase : Nat) (st : BumpState) (size align : Nat) :
    BumpState × Option Nat :=
  let heapTop := heapBase + st.offset
  let aligned := heapTop + alignOffset heapTop align
  let newTop := aligned + size
  let st' : BumpState := ⟨newTop - heapBase⟩
  if RAM_BASE ≤ newTop ∧ newTop < RAM_END then (st', some aligned) else (st', none)

/-- `<&BumpAllocator as Allocator>::deallocate` (heap.rs 102-104): the body
is a single `panic!`. -/
def bumpDeallocate (_st : BumpState) (_ptr _size _align : Nat) :
    Except String (BumpState × Unit) :=
  .error "Deallocated during heap initialization!"

/-- Run a sequence of `allocate` calls, collecting for each the returned
start address paired with the requested size (`none` for a failed call). -/
def bumpRun (heapBase : Nat) (st : BumpState) :
    List (Nat × Nat) → BumpState × List (Option (Nat × Nat))
  | [] => (st, [])
  | (size, align) :: rest =>
    let step := bumpAllocate heapBase st size align
    let tail := bumpRun heapBase step.1 rest
    (tail.1, (step.2.map fun a => (a, size)) :: tail.2)

/-- The stored offset after any `allocate` call, successful or not:
the aligned end of the requested allocation, measured from the heap base. -/
theorem bumpAllocate_offset (hb : Nat) (st : BumpState) (s a : Nat) :
    (bumpAllocate hb st s a).1.offset =
      st.offset + alignOffset (hb + st.offset) a + s := by
  simp only [bumpAllocate]
  split <;> simp <;> omega

/-- A successful `allocate` returns the aligned current top. -/
theorem bumpAllocate_success (hb : Nat) (st : BumpState) (s a addr : Nat)
    (h : (bumpAllocate hb st s a).2 = some addr) :
    addr = hb + st.offset + alignOffset (hb + st.offset) a := by
  simp only [bumpAllocate] at h
  split at h <;> simp_all

/-- Every address returned by a run of the bump allocator lies at or above
the top of the heap at the start of the run. -/
theorem bumpRun_addr_ge (hb : Nat) :
    ∀ (layouts : List (Nat × Nat)) (st : BumpState) (k a s : Nat),
      (bumpRun hb st layouts).2[k]? = some (some (a, s)) →
      hb + st.offset ≤ a := by
  intro layouts
  induction layouts with
  | nil => intro st k a s h; simp [bumpRun] at h
  | cons hd tl ih =>
    intro st k a s h
    obtain ⟨size, align⟩ := hd
    simp only [bumpRun] at h
    match k with
    | 0 =>
      simp only [List.getElem?_cons_zero, Option.some_inj] at h
      cases hsucc : (bumpAllocate hb st size align).2 with
      | none => rw [hsucc] at h; simp at h
      | some addr =>
        rw [hsucc] at h
        simp at h
        obtain ⟨h5, h6⟩ := h
        have := bumpAllocate_success hb st size align addr hsucc
        omega
    | k + 1 =>
      simp only [List.getElem?_cons_succ] at h
      have h2 := ih (bumpAllocate hb st size align).1 k a s h
      have h3 := bumpAllocate_offset hb st size align
      omega

/-- C8 amended, part 1: for two successful allocations `a₁` (at position
`i`) and `a₂` (at position `j > i`) in a run, the end addresses satisfy
`addr₂ + size₂ ≥ addr₁ + size₁`, strictly when `size₂ > 0`. -/
theorem bumpRun_monotonic (hb : Nat) :
    ∀ (layouts : List (Nat × Nat)) (st : BumpState) (i j a1 s1 a2 s2 : Nat),
      i < j →
      (bumpRun hb st layouts).2[i]? = some (some (a1, s1)) →
      (bumpRun hb st layouts).2[j]? = some (some (a2, s2)) →
      a1 + s1 ≤ a2 + s2 ∧ (0 < s2 → a1 + s1 < a2 + s2) := by
  intro layouts
  induction layouts with
  | nil => intro st i j a1 s1 a2 s2 _ h1 _; simp [bumpRun] at h1
  | cons hd tl ih =>
    intro st i j a1 s1 a2 s2 hij h1 h2
    obtain ⟨size, align⟩ := hd
    simp only [bumpRun] at h1 h2
    match i, j with
    | 0, j + 1 =>
      simp only [List.getElem?_cons_zero, Option.some_inj] at h1
      simp only [List.getElem?_cons_succ] at h2
      cases hsucc : (bumpAllocate hb st size align).2 with
      | none => rw [hsucc] at h1; simp at h1
      | some addr =>
        rw [hsucc] at h1
        simp at h1
        obtain ⟨h5, h6⟩ := h1
        have he := bumpAllocate_success hb st size align addr hsucc
        have ho := bumpAllocate_offset hb st size align
        have hge := bumpRun_addr_ge hb tl (bumpAllocate hb st size align).1 j a2 s2 h2
        omega
    | i + 1, j + 1 =>
      simp only [List.getElem?_cons_succ] at h1 h2
      exact ih (bumpAllocate hb st size align).1 i j a1 s1 a2 s2 (by omega) h1 h2

/-- C8 (corrected, counterexample): two consecutive zero-size allocations
both succeed and have equal end addresses, refuting the claimed strict
inequality `addr(a₂) + size(a₂) > addr(a₁) + size(a₁)`. -/
theorem bump_monotonicity_counterexample :
    (bumpRun RAM_BASE ⟨0⟩ [(0, 1), (0, 1)]).2 =
      [some (RAM_BASE, 0), some (RAM_BASE, 0)] ∧
    ¬(RAM_BASE + 0 > RAM_BASE + 0) := by
  constructor
  · decide
  · omega

/-- C8 amended: in any run of the bump allocator, for successful
allocations `a₁` before `a₂`, `addr₂ + size₂ ≥ addr₁ + size₁`, with strict
inequality whenever `size₂ > 0`; and `deallocate` never returns
successfully (its body is a single `panic!`). -/
theorem bump_monotonic_amended :
    (∀ (hb : Nat) (layouts : List (Nat × Nat)) (st : BumpState)
       (i j a1 s1 a2 s2 : Nat),
      i < j →
      (bumpRun hb st layouts).2[i]? = some (some (a1, s1)) →
      (bumpRun hb st layouts).2[j]? = some (some (a2, s2)) →
      a1 + s1 ≤ a2 + s2 ∧ (0 < s2 → a1 + s1 < a2 + s2)) ∧
    (∀ (st : BumpState) (p s a : Nat),
      bumpDeallocate st p s a = .error "Deallocated during heap initialization!") := by
  constructor
  · intro hb layouts st i j a1 s1 a2 s2 hij h1 h2
    exact bumpRun_monotonic hb layouts st i j a1 s1 a2 s2 hij h1 h2
  · intro st p s a
    rfl

/-- Witness for C8 amended at a concrete run: two 4-byte allocations. -/
theorem bump_monotonic_amended_witness :
    RAM_BASE + 4 ≤ RAM_BASE + 4 + 4 ∧ RAM_BASE + 4 < RAM_BASE + 4 + 4 ∧
    bumpDeallocate ⟨0⟩ 0 0 1 = .error "Deallocated during heap initialization!" := by
  have h := bump_monotonic_amended
  have h1 := h.1 RAM_BASE [(4, 1), (4, 1)] ⟨0⟩ 0 1 RAM_BASE 4 (RAM_BASE + 4) 4
    (by decide) (by decide) (by decide)
  exact ⟨h1.1, h1.2 (by decide), h.2 ⟨0⟩ 0 0 1⟩

/-- C10 (corrected, counterexample): after a failed allocation has pushed
the offset to `RAM_LENGTH`, a second zero-size failed allocation leaves
the offset unchanged, refuting "the failure does not leave the offset
unchanged". Both calls return an error. -/
theorem bump_error_offset_counterexample :
    (bumpRun RAM_BASE ⟨0⟩ [(RAM_LENGTH, 1)]).1 = ⟨RAM_LENGTH⟩ ∧
    (bumpRun RAM_BASE ⟨0⟩ [(RAM_LENGTH, 1)]).2 = [none] ∧
    bumpAllocate RAM_BASE ⟨RAM_LENGTH⟩ 0 1 = (⟨RAM_LENGTH⟩, none) := by
  refine ⟨?_, ?_, ?_⟩ <;> decide

/-- C10 amended: whenever `allocate` returns an error, the stored offset
has been set to the aligned end of the failed allocation (measured from
the heap base); it strictly increases whenever the failed request has
nonzero size. -/
theorem bump_error_advances_offset (hb : Nat) (st : BumpState) (s a : Nat)
    (_herr : (bumpAllocate hb st s a).2 = none) :
    (bumpAllocate hb st s a).1.offset =
      hb + st.offset + alignOffset (hb + st.offset) a + s - hb ∧
    (0 < s → st.offset < (bumpAllocate hb st s a).1.offset) := by
  have h := bumpAllocate_offset hb st s a
  constructor
  · omega
  · intro hs; omega

/-- Witness for C10 amended: a failed `RAM_LENGTH`-byte allocation from a
fresh state records offset `RAM_LENGTH`. -/
theorem bump_error_advances_offset_witness :
    (bumpAllocate RAM_BASE ⟨0⟩ RAM_LENGTH 1).1.offset =
      RAM_BASE + 0 + alignOffset (RAM_BASE + 0) 1 + RAM_LENGTH - RAM_BASE ∧
    (0 < RAM_LENGTH → 0 < (bumpAllocate RAM_BASE ⟨0⟩ RAM_LENGTH 1).1.offset) := by
  have h := bump_error_advances_offset RAM_BASE ⟨0⟩ RAM_LENGTH 1 (by decide)
  exact ⟨h.1, h.2⟩

/-! ## Thread state machine (`src/thread.rs`) -/

/-- `ThreadState` from thread.rs. -/
inductive ThreadState where
  | interrupted
  | running
  | ready
  | zombie
deriving DecidableEq

/-- The scheduling-relevant fields of `ThreadControlBlock` (thread.rs
26-45).  The register file, ids and the handle mutex are omitted: the
claims concern only `pc`, `state`, `priority` and `need`.  `priority` is a
`u16` and `need` a `u32` in the source; arithmetic on `need` wraps
`% 2^32` (release-profile Rust). -/
structure ThreadCB where
  pc : Nat
  state : ThreadState
  priority : Nat
  need : Nat
deriving DecidableEq

/-- Result of the external `activate_context` trampoline (`context.rs`):
the pc at which the thread was interrupted and the trap cause. -/
structure ActivationResult where
  pc : Nat
  cause : Nat
deriving DecidableEq

/-- The events of claim C3.  `activate` carries the trampoline result,
because the source `activate` spans the external context switch. -/
inductive ThreadEvent where
  | activate (res : ActivationResult)
  | resolve (synchronous : Bool)
  | kill
deriving DecidableEq

/-- The documented thread-state errors (`ThreadActivationError::ThreadNotReady`,
`ThreadResolveInterruptError::ThreadNotInterrupted`). -/
inductive ThreadError where
  | threadNotReady (s : ThreadState)
  | threadNotInterrupted (s : ThreadState)
deriving DecidableEq

/-- Outcome of one thread operation: a new state, a documented error
(leaving the state unchanged), or a panic. -/
inductive StepOutcome where
  | ok (t : ThreadCB)
  | err (e : ThreadError)
  | panic
deriving DecidableEq

/-- One event executed by the source code.

* `activate` is `ThreadControlBlock::activate` (thread.rs 240-263): only
  from `Ready`; it resets `need := priority`, sets `Running`, runs the
  thread through `activate_context` (whose result is the event payload),
  then stores the returned pc and sets `Interrupted`.
* `resolve` is `ThreadControlBlock::resolve_interrupt` (thread.rs
  329-345): only from `Interrupted`; moves to `Ready` and advances pc by
  4 exactly when `synchronous`.
* `kill` is `ThreadControlBlock::kill` (thread.rs 310-322): panics on a
  `Running` thread, otherwise sets `Zombie` (a no-op on a `Zombie`). -/
def threadStep (t : ThreadCB) : ThreadEvent → StepOutcome
  | .activate res =>
    match t.state with
    | .ready => .ok { t with need := t.priority, pc := res.pc, state := .interrupted }
    | _ => .err (.threadNotReady t.state)
  | .resolve s =>
    match t.state with
    | .interrupted => .ok { t with state := .ready, pc := t.pc + if s then 4 else 0 }
    | _ => .err (.threadNotInterrupted t.state)
  | .kill =>
    match t.state with
    | .running => .panic
    | _ => .ok { t with state := .zombie }

/-- One event of the section 4.8 transition table, written from the
**spec's words** (the refinement target of claim C3):

* activate succeeds only from Ready, to Running (with `need` reset to
  `priority` per the stated invariant); since the source `activate`
  function spans the context switch, the table's trap row
  (Running → Interrupted, pc from the trampoline) composes onto it
  before the function returns;
* resolve succeeds only from Interrupted, to Ready, advancing pc by 4
  exactly when synchronous;
* kill from Ready or Interrupted yields Zombie, kill on Zombie is a
  no-op, kill on Running panics;
* every other transition returns the documented error with the state
  unchanged. -/
def specThreadStep (t : ThreadCB) : ThreadEvent → StepOutcome
  | .activate res =>
    match t.state with
    | .ready =>
      let running : ThreadCB := { t with state := .running, need := t.priority }
      .ok { running with state := .interrupted, pc := res.pc }
    | _ => .err (.threadNotReady t.state)
  | .resolve s =>
    match t.state with
    | .interrupted =>
      .ok { t with state := .ready, pc := if s then t.pc + 4 else t.pc }
    | _ => .err (.threadNotInterrupted t.state)
  | .kill =>
    match t.state with
    | .running => .panic
    | .zombie => .ok { t with state := .zombie }
    | _ => .ok { t with state := .zombie }

/-- Run a trace of events through the source functions, collecting each
outcome.  A documented error leaves the state unchanged and the trace
continues; a panic stops the machine. -/
def runThread (t : ThreadCB) : List ThreadEvent → List StepOutcome
  | [] => []
  | e :: es =>
    match threadStep t e with
    | .ok t2 => .ok t2 :: runThread t2 es
    | .err er => .err er :: runThread t es
    | .panic => [.panic]

/-- Run a trace of events through the section 4.8 table. -/
def runSpecThread (t : ThreadCB) : List ThreadEvent → List StepOutcome
  | [] => []
  | e :: es =>
    match specThreadStep t e with
    | .ok t2 => .ok t2 :: runSpecThread t2 es
    | .err er => .err er :: runSpecThread t es
    | .panic => [.panic]

/-- Single events agree between the source and the table. -/
theorem threadStep_eq_specThreadStep (t : ThreadCB) (e : ThreadEvent) :
    threadStep t e = specThreadStep t e := by
  obtain ⟨pc, st, pr, nd⟩ := t
  cases e with
  | activate res => cases st <;> rfl
  | resolve s => cases st <;> cases s <;> rfl
  | kill => cases st <;> rfl

/-- C3 (confirmed): for every thread and every trace of events drawn from
activate, resolve(sync), resolve(!sync) and kill, the outcomes produced
by the source functions coincide with the section 4.8 transition table:
activate succeeds only from Ready (through Running, landing in
Interrupted when the context switch returns), resolve succeeds only from
Interrupted (to Ready, pc advanced by 4 exactly when synchronous), kill
from Ready or Interrupted yields Zombie and is a no-op on Zombie, kill on
Running panics, and every disallowed transition returns the documented
error without changing the state. -/
theorem thread_state_machine_follows_table (t : ThreadCB) (evs : List ThreadEvent) :
    runThread t evs = runSpecThread t evs := by
  induction evs generalizing t with
  | nil => rfl
  | cons e es ih =>
    simp only [runThread, runSpecThread, threadStep_eq_specThreadStep]
    cases specThreadStep t e <;> simp [ih]

/-! ## Scheduler (`ThreadControlBlock::consider`, `src/process.rs`) -/

/-- `ThreadControlBlock::consider` (thread.rs 269-281): if the thread is
Ready, add `priority` to `need` (`u32` addition, wrapping in release
builds) and return the new need iff it strictly exceeds `best`; any other
state returns `None` and leaves the thread untouched. -/
def consider (t : ThreadCB) (best : Nat) : ThreadCB × Option Nat :=
  match t.state with
  | .ready =>
    let newNeed := (t.need + t.priority) % 2 ^ 32
    ({ t with need := newNeed }, if best < newNeed then some newNeed else none)
  | _ => (t, none)

/-- `ProcessStatus` from process.rs. -/
inductive ProcessStatus where
  | ready
  | zombie
deriving DecidableEq

/-- `ProcessControlBlock` (process.rs 19-30), reduced to the fields the
claims concern: the status and the thread table. -/
structure ProcessCB where
  status : ProcessStatus
  threads : List (Option ThreadCB)
deriving DecidableEq

/-- `Resource::exhausted` for `Option<ThreadControlBlock>` (thread.rs
404-409): empty slot or Zombie thread. -/
def threadExhausted : Option ThreadCB → Bool
  | none => true
  | some t => t.state == .zombie

/-- `Resource::exhausted` for `Option<ProcessControlBlock>` (process.rs
118-123): empty slot or Zombie process. -/
def processExhausted : Option ProcessCB → Bool
  | none => true
  | some p => p.status == .zombie

/-- `CandidateThread` (thread.rs 169-181).  The source handle is a pointer
to the chosen `ThreadControlBlock`; the model stores its position
(process slot, thread slot).  The per-thread handle mutex always succeeds
here because the scheduler is the only running kernel path. -/
structure Candidate where
  best : Nat
  handle : Option (Nat × Nat)
deriving DecidableEq

/-- The thread loop of `ProcessControlBlock::choose` (process.rs 106-115):
fold `consider` over the non-exhausted threads, replacing the candidate
whenever `consider` returns a new best.  `pIdx`/`tIdx` address the slot
being examined. -/
def chooseThreads (pIdx : Nat) : Nat → List (Option ThreadCB) → Candidate →
    List (Option ThreadCB) × Candidate
  | _, [], cand => ([], cand)
  | tIdx, t :: rest, cand =>
    if threadExhausted t then
      let r := chooseThreads pIdx (tIdx + 1) rest cand
      (t :: r.1, r.2)
    else
      match t with
      | some tcb =>
        let c := consider tcb cand.best
        let cand2 := match c.2 with
          | some newBest => Candidate.mk newBest (some (pIdx, tIdx))
          | none => cand
        let r := chooseThreads pIdx (tIdx + 1) rest cand2
        (some c.1 :: r.1, r.2)
      | none =>
        let r := chooseThreads pIdx (tIdx + 1) rest cand
        (t :: r.1, r.2)

/-- The process fold of `choose_next_thread` (process.rs 127-137): skip
exhausted slots, otherwise let the process update the candidate. -/
def chooseProcs : Nat → List (Option ProcessCB) → Candidate →
    List (Option ProcessCB) × Candidate
  | _, [], cand => ([], cand)
  | pIdx, p :: rest, cand =>
    if processExhausted p then
      let r := chooseProcs (pIdx + 1) rest cand
      (p :: r.1, r.2)
    else
      match p with
      | some pcb =>
        let c := chooseThreads pIdx 0 pcb.threads cand
        let r := chooseProcs (pIdx + 1) rest c.2
        (some { pcb with threads := c.1 } :: r.1, r.2)
      | none =>
        let r := chooseProcs (pIdx + 1) rest cand
        (p :: r.1, r.2)

/-- `ResourceManager::<Option<ProcessControlBlock>>::choose_next_thread`
(process.rs 127-137): fold all processes starting from the default
candidate (best 0, no handle) and return the winning handle. -/
def chooseNextThread (procs : List (Option ProcessCB)) :
    List (Option ProcessCB) × Option (Nat × Nat) :=
  let r := chooseProcs 0 procs (Candidate.mk 0 none)
  (r.1, r.2.handle)

/-- Apply `f` to the thread at (pIdx, tIdx), when present. -/
def updateThread (procs : List (Option ProcessCB)) (pIdx tIdx : Nat)
    (f : ThreadCB → ThreadCB) : List (Option ProcessCB) :=
  match procs[pIdx]? with
  | some (some pcb) =>
    match pcb.threads[tIdx]? with
    | some (some tcb) =>
      procs.set pIdx (some { pcb with threads := pcb.threads.set tIdx (some (f tcb)) })
    | _ => procs
  | _ => procs

/-- The `need` of the thread at (pIdx, tIdx). -/
def needOf (procs : List (Option ProcessCB)) (pIdx tIdx : Nat) : Option Nat :=
  match procs[pIdx]? with
  | some (some pcb) =>
    match pcb.threads[tIdx]? with
    | some (some tcb) => some tcb.need
    | _ => none
  | _ => none

/-- One scheduling round of the kernel main loop: select with
`choose_next_thread`, then activate the winner.  Activation resets
`need := priority` (thread.rs 246); the thread then runs until the timer
interrupt, whose handler resolves it back to Ready (main.rs, interrupt
cause 5), so across a full round the winner ends Ready with
`need = priority`. -/
def schedRound (procs : List (Option ProcessCB)) :
    List (Option ProcessCB) × Option (Nat × Nat) :=
  let r := chooseNextThread procs
  match r.2 with
  | some h => (updateThread r.1 h.1 h.2 (fun t => { t with need := t.priority }), some h)
  | none => (r.1, none)

/-- Iterate `schedRound`, collecting the winner of each round. -/
def schedTrace : Nat → List (Option ProcessCB) → List (Option (Nat × Nat))
  | 0, _ => []
  | n + 1, procs =>
    let r := schedRound procs
    r.2 :: schedTrace n r.1

/-- Iterate `schedRound`, returning the process table after `n` rounds. -/
def schedIter : Nat → List (Option ProcessCB) → List (Option ProcessCB)
  | 0, procs => procs
  | n + 1, procs => schedIter n (schedRound procs).1

/-- The two-thread scenario of claim C1: one Ready process holding T1
(priority 3, need 3) and T2 (priority 5, need 5), both Ready. -/
def agingScenario : List (Option ProcessCB) :=
  [some (ProcessCB.mk .ready
    [some (ThreadCB.mk 0 .ready 3 3), some (ThreadCB.mk 0 .ready 5 5)])]

/-- C1 (corrected, counterexample): with T1 (priority 3) and T2
(priority 5) both starting at need = priority, five rounds of
`choose_next_thread` + activation produce the winner order
T2, T2, T1, T2, T2 — not the claimed T2, T1, T2, T1, T2.  (Thread slots:
(0,0) is T1, (0,1) is T2.) -/
theorem scheduling_aging_counterexample :
    schedTrace 5 agingScenario =
      [some (0, 1), some (0, 1), some (0, 0), some (0, 1), some (0, 1)] ∧
    schedTrace 5 agingScenario ≠
      [some (0, 1), some (0, 0), some (0, 1), some (0, 0), some (0, 1)] := by
  constructor <;> decide

/-- C1 amended: the five-round activation order is T2, T2, T1, T2, T2;
after each round the selected thread's `need` equals its priority and
every considered-but-not-chosen Ready thread's `need` has grown by its
priority.  The need trajectory (T1, T2) after rounds 1..5 is
(6,5), (9,5), (3,10), (6,5), (9,5). -/
theorem scheduling_aging_amended :
    schedTrace 5 agingScenario =
      [some (0, 1), some (0, 1), some (0, 0), some (0, 1), some (0, 1)] ∧
    needOf (schedIter 1 agingScenario) 0 0 = some 6 ∧
    needOf (schedIter 1 agingScenario) 0 1 = some 5 ∧
    needOf (schedIter 2 agingScenario) 0 0 = some 9 ∧
    needOf (schedIter 2 agingScenario) 0 1 = some 5 ∧
    needOf (schedIter 3 agingScenario) 0 0 = some 3 ∧
    needOf (schedIter 3 agingScenario) 0 1 = some 10 ∧
    needOf (schedIter 4 agingScenario) 0 0 = some 6 ∧
    needOf (schedIter 4 agingScenario) 0 1 = some 5 ∧
    needOf (schedIter 5 agingScenario) 0 0 = some 9 ∧
    needOf (schedIter 5 agingScenario) 0 1 = some 5 := by
  refine ⟨?_, ?_, ?_, ?_, ?_, ?_, ?_, ?_, ?_, ?_, ?_⟩ <;> decide

/-- If the thread fold ends with no handle, the candidate is untouched. -/
theorem chooseThreads_none_eq (pIdx : Nat) :
    ∀ (ts : List (Option ThreadCB)) (tIdx : Nat) (cand : Candidate),
      (chooseThreads pIdx tIdx ts cand).2.handle = none →
      (chooseThreads pIdx tIdx ts cand).2 = cand := by
  intro ts
  induction ts with
  | nil => intro tIdx cand _; rfl
  | cons t rest ih =>
    intro tIdx cand h
    cases hex : threadExhausted t with
    | true => simp only [chooseThreads, hex, if_pos] at h ⊢; exact ih (tIdx + 1) cand h
    | false =>
      cases t with
      | none => simp [threadExhausted] at hex
      | some tcb =>
        simp only [chooseThreads, hex, Bool.false_eq_true, if_neg] at h ⊢
        cases hst : tcb.state with
        | ready =>
          simp only [consider, hst] at h ⊢
          by_cases hlt : cand.best < (tcb.need + tcb.priority) % 2 ^ 32
          · simp only [if_pos hlt] at h ⊢
            have h2 := ih (tIdx + 1)
              (Candidate.mk ((tcb.need + tcb.priority) % 2 ^ 32) (some (pIdx, tIdx))) h
            rw [h2] at h
            simp at h
          · simp only [if_neg hlt] at h ⊢
            exact ih (tIdx + 1) cand h
        | running => simp only [consider, hst] at h ⊢; exact ih (tIdx + 1) cand h
        | interrupted => simp only [consider, hst] at h ⊢; exact ih (tIdx + 1) cand h
        | zombie => simp [threadExhausted, hst] at hex

/-- Unfolding: an exhausted slot is skipped. -/
theorem chooseThreads_cons_exhausted (pIdx tIdx : Nat) (t : Option ThreadCB)
    (rest : List (Option ThreadCB)) (cand : Candidate)
    (hex : threadExhausted t = true) :
    chooseThreads pIdx tIdx (t :: rest) cand =
      (t :: (chooseThreads pIdx (tIdx + 1) rest cand).1,
       (chooseThreads pIdx (tIdx + 1) rest cand).2) := by
  simp [chooseThreads, hex]

/-- Unfolding: a Ready thread beating the current best becomes the new
candidate, with its need incremented. -/
theorem chooseThreads_cons_accept (pIdx tIdx : Nat) (tcb : ThreadCB)
    (rest : List (Option ThreadCB)) (cand : Candidate)
    (hst : tcb.state = .ready)
    (hlt : cand.best < (tcb.need + tcb.priority) % 2 ^ 32) :
    chooseThreads pIdx tIdx (some tcb :: rest) cand =
      (some { tcb with need := (tcb.need + tcb.priority) % 2 ^ 32 } ::
        (chooseThreads pIdx (tIdx + 1) rest
          (Candidate.mk ((tcb.need + tcb.priority) % 2 ^ 32) (some (pIdx, tIdx)))).1,
       (chooseThreads pIdx (tIdx + 1) rest
          (Candidate.mk ((tcb.need + tcb.priority) % 2 ^ 32) (some (pIdx, tIdx)))).2) := by
  have hex : threadExhausted (some tcb) = false := by simp [threadExhausted, hst]
  have hlt2 : cand.best < (tcb.need + tcb.priority) % 4294967296 := by simpa using hlt
  simp [chooseThreads, hex, consider, hst, hlt2]

/-- Unfolding: a Ready thread not beating the current best still has its
need incremented, but the candidate is kept. -/
theorem chooseThreads_cons_reject (pIdx tIdx : Nat) (tcb : ThreadCB)
    (rest : List (Option ThreadCB)) (cand : Candidate)
    (hst : tcb.state = .ready)
    (hlt : ¬cand.best < (tcb.need + tcb.priority) % 2 ^ 32) :
    chooseThreads pIdx tIdx (some tcb :: rest) cand =
      (some { tcb with need := (tcb.need + tcb.priority) % 2 ^ 32 } ::
        (chooseThreads pIdx (tIdx + 1) rest cand).1,
       (chooseThreads pIdx (tIdx + 1) rest cand).2) := by
  have hex : threadExhausted (some tcb) = false := by simp [threadExhausted, hst]
  have hlt2 : ¬cand.best < (tcb.need + tcb.priority) % 4294967296 := by simpa using hlt
  simp [chooseThreads, hex, consider, hst, hlt2]

/-- Unfolding: a Running or Interrupted thread is passed over unchanged. -/
theorem chooseThreads_cons_skip (pIdx tIdx : Nat) (tcb : ThreadCB)
    (rest : List (Option ThreadCB)) (cand : Candidate)
    (hst : tcb.state = .running ∨ tcb.state = .interrupted) :
    chooseThreads pIdx tIdx (some tcb :: rest) cand =
      (some tcb :: (chooseThreads pIdx (tIdx + 1) rest cand).1,
       (chooseThreads pIdx (tIdx + 1) rest cand).2) := by
  have hex : threadExhausted (some tcb) = false := by
    rcases hst with h | h <;> simp [threadExhausted, h]
  rcases hst with h | h <;> simp [chooseThreads, hex, consider, h]

/-- The thread fold yields no handle iff the incoming candidate had none
and every Ready thread's incremented need stays at or below the incoming
best. -/
theorem chooseThreads_none_iff (pIdx : Nat) :
    ∀ (ts : List (Option ThreadCB)) (tIdx : Nat) (cand : Candidate),
      (chooseThreads pIdx tIdx ts cand).2.handle = none ↔
      (cand.handle = none ∧ ∀ tcb, some tcb ∈ ts → tcb.state = .ready →
        (tcb.need + tcb.priority) % 2 ^ 32 ≤ cand.best) := by
  intro ts
  induction ts with
  | nil =>
    intro tIdx cand
    simp [chooseThreads]
  | cons t rest ih =>
    intro tIdx cand
    have tailiff : ∀ P : Prop,
        ((chooseThreads pIdx (tIdx + 1) rest cand).2.handle = none ↔
          cand.handle = none ∧ ∀ tcb, some tcb ∈ rest → tcb.state = .ready →
            (tcb.need + tcb.priority) % 2 ^ 32 ≤ cand.best) := fun _ => ih (tIdx + 1) cand
    cases t with
    | none =>
      rw [chooseThreads_cons_exhausted pIdx tIdx none rest cand (by simp [threadExhausted])]
      rw [ih (tIdx + 1) cand]
      simp
    | some tcb0 =>
      cases hst0 : tcb0.state with
      | ready =>
        by_cases hlt : cand.best < (tcb0.need + tcb0.priority) % 2 ^ 32
        · rw [chooseThreads_cons_accept pIdx tIdx tcb0 rest cand hst0 hlt]
          constructor
          · intro h
            have h2 := chooseThreads_none_eq pIdx rest (tIdx + 1)
              (Candidate.mk ((tcb0.need + tcb0.priority) % 2 ^ 32) (some (pIdx, tIdx))) h
            rw [h2] at h
            simp at h
          · rintro ⟨_, h2⟩
            have h3 := h2 tcb0 (List.mem_cons_self _ _) hst0
            omega
        · rw [chooseThreads_cons_reject pIdx tIdx tcb0 rest cand hst0 hlt]
          rw [ih (tIdx + 1) cand]
          constructor
          · rintro ⟨h1, h2⟩
            refine ⟨h1, ?_⟩
            intro tcb hmem hstr
            rcases List.mem_cons.mp hmem with heq | hmem2
            · obtain rfl : tcb = tcb0 := by simpa using heq
              omega
            · exact h2 tcb hmem2 hstr
          · rintro ⟨h1, h2⟩
            exact ⟨h1, fun tcb hmem hstr => h2 tcb (List.mem_cons_of_mem _ hmem) hstr⟩
      | running =>
        rw [chooseThreads_cons_skip pIdx tIdx tcb0 rest cand (Or.inl hst0)]
        rw [ih (tIdx + 1) cand]
        constructor
        · rintro ⟨h1, h2⟩
          refine ⟨h1, ?_⟩
          intro tcb hmem hstr
          rcases List.mem_cons.mp hmem with heq | hmem2
          · obtain rfl : tcb = tcb0 := by simpa using heq
            rw [hstr] at hst0; cases hst0
          · exact h2 tcb hmem2 hstr
        · rintro ⟨h1, h2⟩
          exact ⟨h1, fun tcb hmem hstr => h2 tcb (List.mem_cons_of_mem _ hmem) hstr⟩
      | interrupted =>
        rw [chooseThreads_cons_skip pIdx tIdx tcb0 rest cand (Or.inr hst0)]
        rw [ih (tIdx + 1) cand]
        constructor
        · rintro ⟨h1, h2⟩
          refine ⟨h1, ?_⟩
          intro tcb hmem hstr
          rcases List.mem_cons.mp hmem with heq | hmem2
          · obtain rfl : tcb = tcb0 := by simpa using heq
            rw [hstr] at hst0; cases hst0
          · exact h2 tcb hmem2 hstr
        · rintro ⟨h1, h2⟩
          exact ⟨h1, fun tcb hmem hstr => h2 tcb (List.mem_cons_of_mem _ hmem) hstr⟩
      | zombie =>
        rw [chooseThreads_cons_exhausted pIdx tIdx (some tcb0) rest cand
          (by simp [threadExhausted, hst0])]
        rw [ih (tIdx + 1) cand]
        constructor
        · rintro ⟨h1, h2⟩
          refine ⟨h1, ?_⟩
          intro tcb hmem hstr
          rcases List.mem_cons.mp hmem with heq | hmem2
          · obtain rfl : tcb = tcb0 := by simpa using heq
            rw [hstr] at hst0; cases hst0
          · exact h2 tcb hmem2 hstr
        · rintro ⟨h1, h2⟩
          exact ⟨h1, fun tcb hmem hstr => h2 tcb (List.mem_cons_of_mem _ hmem) hstr⟩

/-- If the thread fold produces a handle, it either came in with the
candidate or points at a Ready thread of the updated list. -/
theorem chooseThreads_some_ready (pIdx : Nat) :
    ∀ (ts : List (Option ThreadCB)) (tIdx : Nat) (cand : Candidate) (p i : Nat),
      (chooseThreads pIdx tIdx ts cand).2.handle = some (p, i) →
      cand.handle = some (p, i) ∨
      (p = pIdx ∧ ∃ k tcb, i = tIdx + k ∧
        (chooseThreads pIdx tIdx ts cand).1[k]? = some (some tcb) ∧
        tcb.state = .ready) := by
  intro ts
  induction ts with
  | nil => intro tIdx cand p i h; exact Or.inl h
  | cons t rest ih =>
    intro tIdx cand p i h
    have liftTail : ∀ (cand2 : Candidate) (hd : Option ThreadCB),
        (chooseThreads pIdx (tIdx + 1) rest cand2).2.handle = some (p, i) →
        cand2.handle = some (p, i) ∨
        (p = pIdx ∧ ∃ k tcb, i = tIdx + k ∧
          (hd :: (chooseThreads pIdx (tIdx + 1) rest cand2).1)[k]? = some (some tcb) ∧
          tcb.state = .ready) := by
      intro cand2 hd h2
      rcases ih (tIdx + 1) cand2 p i h2 with hl | ⟨hp, k, tcb, hik, hget, hst⟩
      · exact Or.inl hl
      · refine Or.inr ⟨hp, k + 1, tcb, by omega, ?_, hst⟩
        simpa using hget
    cases t with
    | none =>
      rw [chooseThreads_cons_exhausted pIdx tIdx none rest cand
        (by simp [threadExhausted])] at h ⊢
      exact liftTail cand none h
    | some tcb0 =>
      cases hst0 : tcb0.state with
      | ready =>
        by_cases hlt : cand.best < (tcb0.need + tcb0.priority) % 2 ^ 32
        · rw [chooseThreads_cons_accept pIdx tIdx tcb0 rest cand hst0 hlt] at h ⊢
          rcases liftTail (Candidate.mk ((tcb0.need + tcb0.priority) % 2 ^ 32)
              (some (pIdx, tIdx)))
              (some { tcb0 with need := (tcb0.need + tcb0.priority) % 2 ^ 32 }) h with
            hl | hr
          · simp only [Option.some_inj, Prod.mk.injEq] at hl
            refine Or.inr ⟨hl.1.symm, 0, { tcb0 with need := (tcb0.need + tcb0.priority) % 2 ^ 32 },
              by omega, ?_, by simp [hst0]⟩
            simp
          · exact Or.inr hr
        · rw [chooseThreads_cons_reject pIdx tIdx tcb0 rest cand hst0 hlt] at h ⊢
          exact liftTail cand
            (some { tcb0 with need := (tcb0.need + tcb0.priority) % 2 ^ 32 }) h
      | running =>
        rw [chooseThreads_cons_skip pIdx tIdx tcb0 rest cand (Or.inl hst0)] at h ⊢
        exact liftTail cand (some tcb0) h
      | interrupted =>
        rw [chooseThreads_cons_skip pIdx tIdx tcb0 rest cand (Or.inr hst0)] at h ⊢
        exact liftTail cand (some tcb0) h
      | zombie =>
        rw [chooseThreads_cons_exhausted pIdx tIdx (some tcb0) rest cand
          (by simp [threadExhausted, hst0])] at h ⊢
        exact liftTail cand (some tcb0) h

/-- Unfolding: an exhausted process slot is skipped. -/
theorem chooseProcs_cons_exhausted (pIdx : Nat) (p : Option ProcessCB)
    (rest : List (Option ProcessCB)) (cand : Candidate)
    (hex : processExhausted p = true) :
    chooseProcs pIdx (p :: rest) cand =
      (p :: (chooseProcs (pIdx + 1) rest cand).1,
       (chooseProcs (pIdx + 1) rest cand).2) := by
  cases p with
  | none => simp [chooseProcs, processExhausted]
  | some pcb => simp [chooseProcs, hex]

/-- Unfolding: a live process folds its threads into the candidate. -/
theorem chooseProcs_cons_active (pIdx : Nat) (pcb : ProcessCB)
    (rest : List (Option ProcessCB)) (cand : Candidate)
    (hst : pcb.status = .ready) :
    chooseProcs pIdx (some pcb :: rest) cand =
      (some { pcb with threads := (chooseThreads pIdx 0 pcb.threads cand).1 } ::
        (chooseProcs (pIdx + 1) rest (chooseThreads pIdx 0 pcb.threads cand).2).1,
       (chooseProcs (pIdx + 1) rest (chooseThreads pIdx 0 pcb.threads cand).2).2) := by
  have hex : processExhausted (some pcb) = false := by simp [processExhausted, hst]
  simp [chooseProcs, hex]

/-- If the process fold ends with no handle, the candidate is untouched. -/
theorem chooseProcs_none_eq :
    ∀ (ps : List (Option ProcessCB)) (pIdx : Nat) (cand : Candidate),
      (chooseProcs pIdx ps cand).2.handle = none →
      (chooseProcs pIdx ps cand).2 = cand := by
  intro ps
  induction ps with
  | nil => intro pIdx cand _; rfl
  | cons p rest ih =>
    intro pIdx cand h
    cases hex : processExhausted p with
    | true =>
      rw [chooseProcs_cons_exhausted pIdx p rest cand hex] at h ⊢
      exact ih (pIdx + 1) cand h
    | false =>
      cases p with
      | none => simp [processExhausted] at hex
      | some pcb =>
        have hst : pcb.status = .ready := by
          cases hps : pcb.status
          · rfl
          · simp [processExhausted, hps] at hex
        rw [chooseProcs_cons_active pIdx pcb rest cand hst] at h ⊢
        have h2 := ih (pIdx + 1) (chooseThreads pIdx 0 pcb.threads cand).2 h
        rw [h2] at h ⊢
        exact chooseThreads_none_eq pIdx pcb.threads 0 cand h

/-- The process fold yields no handle iff the incoming candidate had none
and every Ready thread of every live process has its incremented need at
or below the incoming best. -/
theorem chooseProcs_none_iff :
    ∀ (ps : List (Option ProcessCB)) (pIdx : Nat) (cand : Candidate),
      (chooseProcs pIdx ps cand).2.handle = none ↔
      (cand.handle = none ∧ ∀ pcb, some pcb ∈ ps → pcb.status = .ready →
        ∀ tcb, some tcb ∈ pcb.threads → tcb.state = .ready →
          (tcb.need + tcb.priority) % 2 ^ 32 ≤ cand.best) := by
  intro ps
  induction ps with
  | nil => intro pIdx cand; simp [chooseProcs]
  | cons p rest ih =>
    intro pIdx cand
    cases p with
    | none =>
      rw [chooseProcs_cons_exhausted pIdx none rest cand (by simp [processExhausted])]
      rw [ih (pIdx + 1) cand]
      simp
    | some pcb =>
      cases hps : pcb.status with
      | zombie =>
        rw [chooseProcs_cons_exhausted pIdx (some pcb) rest cand
          (by simp [processExhausted, hps])]
        rw [ih (pIdx + 1) cand]
        constructor
        · rintro ⟨h1, h2⟩
          refine ⟨h1, ?_⟩
          intro pcb2 hmem hst2
          rcases List.mem_cons.mp hmem with heq | hmem2
          · obtain rfl : pcb2 = pcb := by simpa using heq
            rw [hst2] at hps; cases hps
          · exact h2 pcb2 hmem2 hst2
        · rintro ⟨h1, h2⟩
          exact ⟨h1, fun pcb2 hmem hst2 => h2 pcb2 (List.mem_cons_of_mem _ hmem) hst2⟩
      | ready =>
        rw [chooseProcs_cons_active pIdx pcb rest cand hps]
        rw [ih (pIdx + 1) (chooseThreads pIdx 0 pcb.threads cand).2]
        constructor
        · rintro ⟨h1, h2⟩
          have hcand := chooseThreads_none_eq pIdx pcb.threads 0 cand h1
          obtain ⟨h3, h4⟩ := (chooseThreads_none_iff pIdx pcb.threads 0 cand).mp h1
          rw [hcand] at h2
          refine ⟨h3, ?_⟩
          intro pcb2 hmem hst2
          rcases List.mem_cons.mp hmem with heq | hmem2
          · obtain rfl : pcb2 = pcb := by simpa using heq
            exact h4
          · exact h2 pcb2 hmem2 hst2
        · rintro ⟨h1, h2⟩
          have hthreads := h2 pcb (List.mem_cons_self _ _) hps
          have hnone : (chooseThreads pIdx 0 pcb.threads cand).2.handle = none :=
            (chooseThreads_none_iff pIdx pcb.threads 0 cand).mpr ⟨h1, hthreads⟩
          have hcand := chooseThreads_none_eq pIdx pcb.threads 0 cand hnone
          rw [hcand]
          refine ⟨h1, ?_⟩
          intro pcb2 hmem hst2
          exact h2 pcb2 (List.mem_cons_of_mem _ hmem) hst2

/-- If the process fold produces a handle, it either came in with the
candidate or points at a Ready thread of some process in the updated
table. -/
theorem chooseProcs_some_ready :
    ∀ (ps : List (Option ProcessCB)) (pIdx : Nat) (cand : Candidate) (p i : Nat),
      (chooseProcs pIdx ps cand).2.handle = some (p, i) →
      cand.handle = some (p, i) ∨
      (∃ k pcb tcb, p = pIdx + k ∧
        (chooseProcs pIdx ps cand).1[k]? = some (some pcb) ∧
        pcb.threads[i]? = some (some tcb) ∧ tcb.state = .ready) := by
  intro ps
  induction ps with
  | nil => intro pIdx cand p i h; exact Or.inl h
  | cons q rest ih =>
    intro pIdx cand p i h
    have liftTail : ∀ (cand2 : Candidate) (hd : Option ProcessCB),
        (chooseProcs (pIdx + 1) rest cand2).2.handle = some (p, i) →
        cand2.handle = some (p, i) ∨
        (∃ k pcb tcb, p = pIdx + k ∧
          (hd :: (chooseProcs (pIdx + 1) rest cand2).1)[k]? = some (some pcb) ∧
          pcb.threads[i]? = some (some tcb) ∧ tcb.state = .ready) := by
      intro cand2 hd h2
      rcases ih (pIdx + 1) cand2 p i h2 with hl | ⟨k, pcb, tcb, hpk, hget, hti, hst⟩
      · exact Or.inl hl
      · refine Or.inr ⟨k + 1, pcb, tcb, by omega, ?_, hti, hst⟩
        simpa using hget
    cases q with
    | none =>
      rw [chooseProcs_cons_exhausted pIdx none rest cand (by simp [processExhausted])] at h ⊢
      exact liftTail cand none h
    | some pcb0 =>
      cases hps : pcb0.status with
      | zombie =>
        rw [chooseProcs_cons_exhausted pIdx (some pcb0) rest cand
          (by simp [processExhausted, hps])] at h ⊢
        exact liftTail cand (some pcb0) h
      | ready =>
        rw [chooseProcs_cons_active pIdx pcb0 rest cand hps] at h ⊢
        rcases liftTail (chooseThreads pIdx 0 pcb0.threads cand).2
            (some { pcb0 with threads := (chooseThreads pIdx 0 pcb0.threads cand).1 }) h with
          hl | hr
        · rcases chooseThreads_some_ready pIdx pcb0.threads 0 cand p i hl with
            hcand | ⟨hp, k, tcb, hik, hget, hst⟩
          · exact Or.inl hcand
          · refine Or.inr ⟨0, { pcb0 with threads := (chooseThreads pIdx 0 pcb0.threads cand).1 },
              tcb, by omega, by simp, ?_, hst⟩
            simpa [hik] using hget
        · exact Or.inr hr

/-- C9 (corrected, counterexample): a single Ready process with a single
Ready thread of priority 0 and need 0 makes `choose_next_thread` return
`None`, although a runnable (Ready) thread exists in a non-exhausted
process. -/
theorem choose_next_thread_counterexample :
    (chooseNextThread
      [some (ProcessCB.mk .ready [some (ThreadCB.mk 0 .ready 0 0)])]).2 = none ∧
    processExhausted (some (ProcessCB.mk .ready [some (ThreadCB.mk 0 .ready 0 0)])) = false ∧
    (ThreadCB.mk 0 .ready 0 0).state = .ready := by
  refine ⟨?_, ?_, ?_⟩ <;> decide

/-- C9 amended: `choose_next_thread` over the process table returns `None`
iff every Ready thread of every non-exhausted (Ready) process has
`(need + priority) mod 2^32 = 0` — in particular whenever no Ready thread
exists at all; and whenever it returns a handle, the handle points at a
Ready thread of the (need-updated) table. -/
theorem choose_next_thread_amended :
    (∀ procs : List (Option ProcessCB),
      ((chooseNextThread procs).2 = none ↔
        ∀ pcb, some pcb ∈ procs → pcb.status = .ready →
          ∀ tcb, some tcb ∈ pcb.threads → tcb.state = .ready →
            (tcb.need + tcb.priority) % 2 ^ 32 = 0)) ∧
    (∀ (procs : List (Option ProcessCB)) (p i : Nat),
      (chooseNextThread procs).2 = some (p, i) →
      ∃ pcb tcb, (chooseNextThread procs).1[p]? = some (some pcb) ∧
        pcb.threads[i]? = some (some tcb) ∧ tcb.state = .ready) := by
  constructor
  · intro procs
    have h := chooseProcs_none_iff procs 0 (Candidate.mk 0 none)
    simp only [chooseNextThread]
    rw [h]
    simp only [true_and]
    constructor
    · intro h2 pcb hmem hst tcb htm hts
      exact Nat.le_zero.mp (h2 pcb hmem hst tcb htm hts)
    · intro h2 pcb hmem hst tcb htm hts
      exact Nat.le_of_eq (h2 pcb hmem hst tcb htm hts)
  · intro procs p i h
    simp only [chooseNextThread] at h ⊢
    rcases chooseProcs_some_ready procs 0 (Candidate.mk 0 none) p i h with hl | hr
    · cases hl
    · obtain ⟨k, pcb, tcb, hpk, hget, hti, hst⟩ := hr
      refine ⟨pcb, tcb, ?_, hti, hst⟩
      have : p = k := by omega
      rw [this]
      exact hget

/-- Witness for C9 amended at the aging scenario: the returned handle
(0, 1) points at the Ready thread T2. -/
theorem choose_next_thread_amended_witness :
    ∃ pcb tcb, (chooseNextThread agingScenario).1[0]? = some (some pcb) ∧
      pcb.threads[1]? = some (some tcb) ∧ tcb.state = .ready := by
  exact choose_next_thread_amended.2 agingScenario 0 1 (by decide)

/-! ## Atomic bit vector (`src/data.rs`) -/

/-- `usize::MAX` on the 64-bit target. -/
def USIZE_MAX : Nat := 2 ^ 64 - 1

/-- `AtomicBitVec` (data.rs 13-19): bits packed into 64-bit words plus the
enforced length.  Every stored word is `< 2^64`. -/
structure AtomicBitVec where
  inner : List Nat
  length : Nat
deriving DecidableEq

/-- `AtomicBitVec::new_in` (data.rs 24-37): `size.div_ceil(64)` zeroed
words. -/
def AtomicBitVec.new (size : Nat) : AtomicBitVec :=
  ⟨List.replicate ((size + 64 - 1) / 64) 0, size⟩

/-- `AtomicBitVec::get` (data.rs 41-49): `None` past the enforced length
or past the allocated words, otherwise test bit `index % 64` of word
`index / 64`. -/
def AtomicBitVec.get (bv : AtomicBitVec) (index : Nat) : Option Bool :=
  if index ≥ bv.length then none
  else
    (bv.inner.get? (index / 64)).map fun packed =>
      decide (0 < packed &&& (1 <<< (index % 64)))

/-- `AtomicBitVec::set` (data.rs 53-69): `fetch_or` of the bit or
`fetch_and` of its complement (`!x` on usize is `x ^^^ USIZE_MAX`).
Out-of-range indices change nothing (the source returns `None` there).
The returned `Option<bool>` is dropped: every caller in heap.rs ignores
it. -/
def AtomicBitVec.set (bv : AtomicBitVec) (index : Nat) (val : Bool) : AtomicBitVec :=
  if index ≥ bv.length then bv
  else
    match bv.inner.get? (index / 64) with
    | none => bv
    | some packed =>
      let packed2 := if val then packed ||| (1 <<< (index % 64))
                     else packed &&& (USIZE_MAX ^^^ (1 <<< (index % 64)))
      ⟨bv.inner.set (index / 64) packed2, bv.length⟩

/-- `u64::leading_ones`: the number of consecutive set bits of `w`
starting from bit 63 downwards. -/
def leadingOnes64 (w : Nat) : Nat :=
  ((List.range 64).takeWhile fun i => w.testBit (63 - i)).length

/-- `AtomicBitVec::_find_false` (data.rs 73-81): scan the words in order;
for the first word strictly below `usize::MAX` return
`index * 8 + usize::BITS - 1 - leading_ones(word)` exactly as the source
computes it; `None` if every word equals `usize::MAX`. -/
def AtomicBitVec.findFalse (bv : AtomicBitVec) : Option Nat :=
  bv.inner.enum.findSome? fun p =>
    if p.2 < USIZE_MAX then some (p.1 * 8 + 64 - 1 - leadingOnes64 p.2) else none

/-- C6 (code_bug): on the length-64 vector whose bits 1 and 5 are clear
and all other bits set, `_find_false` returns `some 5`, yet the lowest
clear bit is 1 (`get 0 = true`, `get 1 = false`).  The scan uses
`leading_ones`, which locates the highest clear bit of the word rather
than the lowest, and scales the word index by 8 instead of 64 — both at
odds with the function's own doc comment ("Finds the first instance of
false in the bit vec"). -/
theorem find_false_counterexample :
    (AtomicBitVec.mk [2 ^ 64 - 35] 64).findFalse = some 5 ∧
    (AtomicBitVec.mk [2 ^ 64 - 35] 64).get 1 = some false ∧
    (AtomicBitVec.mk [2 ^ 64 - 35] 64).get 0 = some true := by
  refine ⟨?_, ?_, ?_⟩ <;> decide

/-! ## Page free lists and the buddy allocator (`src/heap.rs`)

Pointers to pages are modelled as page numbers: the byte offset of the
page from `RAM_BASE` divided by `size_of::<PageLink>() = 4096` (the
`repr(align(4096))` struct occupies a whole page), which is exactly the
quantity `offset_between(page, RAM_BASE)` computes in the source. -/

/-- `PAGE_SIZE` from heap.rs. -/
def PAGE_SIZE : Nat := 4096

/-- The number of pages in RAM, `RAM_LENGTH / PAGE_SIZE` as computed in
`PageAllocator::init`. -/
def NUM_PAGES : Nat := RAM_LENGTH / PAGE_SIZE

/-- The `prev`/`next` neighbour pointers stored inside every free page
(`PageLink`, heap.rs 110-115), as a total map from page numbers to
(prev, next).  Only entries of currently free pages are ever read, as in
the source. -/
structure LinkHeap where
  links : Nat → Nat × Nat

/-- Store a new `prev` pointer in page `p`. -/
def LinkHeap.setPrev (lh : LinkHeap) (p v : Nat) : LinkHeap :=
  ⟨fun q => if q = p then (v, (lh.links q).2) else lh.links q⟩

/-- Store a new `next` pointer in page `p`. -/
def LinkHeap.setNext (lh : LinkHeap) (p v : Nat) : LinkHeap :=
  ⟨fun q => if q = p then ((lh.links q).1, v) else lh.links q⟩

/-- `PageLink::allocate` (heap.rs 128-145): unlink `pn` from the ring.
If `pn.next = pn` this was the last free page (the source asserts
`prev == next`) and `None` is returned; otherwise the neighbours are
stitched together and the old `next` is returned. -/
def pageLinkAllocate (lh : LinkHeap) (pn : Nat) :
    Except String (LinkHeap × Option Nat) :=
  let prev := (lh.links pn).1
  let next := (lh.links pn).2
  if next = pn then
    if prev = next then .ok (lh, none)
    else .error "assertion failed: prev == next"
  else
    .ok ((lh.setNext prev next).setPrev next prev, some next)

/-- `PageLink::deallocate` (heap.rs 159-176): splice `pn` into the ring
rooted at `other` (the free list's `pages` head).  With a null head the
page becomes a self-loop and the new head; otherwise it is spliced right
after the head, which stays head.  Returns the updated head. -/
def pageLinkDeallocate (lh : LinkHeap) (pn : Nat) (other : Option Nat) :
    LinkHeap × Option Nat :=
  match other with
  | none => ((lh.setPrev pn pn).setNext pn pn, some pn)
  | some o =>
    let next := (lh.links o).2
    let lh1 := lh.setNext o pn
    let lh2 := (lh1.setPrev pn o).setNext pn next
    (lh2.setPrev next pn, some o)

/-- `PageFreeList` (heap.rs 181-188): availability bitmap, head pointer
`pages` (`none` for null) and the grain. -/
structure PageFreeList where
  available : AtomicBitVec
  pages : Option Nat
  grain : Nat

/-- `PageFreeList::new` (heap.rs 196-202). -/
def PageFreeList.new (numPages grain : Nat) : PageFreeList :=
  ⟨AtomicBitVec.new (numPages >>> grain), none, grain⟩

/-- `PageFreeList::get_index` (heap.rs 221-239): assert the page is
aligned to groups of `2^grain` pages, then shift the page number down by
the grain. -/
def PageFreeList.getIndex (fl : PageFreeList) (pn : Nat) : Except String Nat :=
  if pn % 2 ^ fl.grain = 0 then .ok (pn >>> fl.grain)
  else .error "page is not aligned to groups of 2^grain pages"

/-- `PageFreeList::get_page` (heap.rs 257-267): scale the index up by the
grain and assert the resulting page lies in RAM. -/
def PageFreeList.getPage (fl : PageFreeList) (index : Nat) : Except String Nat :=
  if index <<< fl.grain < NUM_PAGES then .ok (index <<< fl.grain)
  else .error "page outside RAM"

/-- `PageFreeList::allocate_page_exact` (heap.rs 347-370): assert the bit
for `index` is set ("Page is already allocated!" otherwise), clear it,
unlink the page from the ring and update the head, asserting the new head
is recorded free. -/
def PageFreeList.allocatePageExact (fl : PageFreeList) (lh : LinkHeap)
    (index pn : Nat) : Except String (PageFreeList × LinkHeap) := do
  match fl.available.get index with
  | none => .error "Allocating page out of bounds!"
  | some b =>
    if !b then .error "Page is already allocated!"
    else
      let fl1 : PageFreeList := { fl with available := fl.available.set index false }
      let (lh2, res) ← pageLinkAllocate lh pn
      match res with
      | some newAddr => do
        let fl2 : PageFreeList := { fl1 with pages := some newAddr }
        let idx2 ← fl2.getIndex newAddr
        match fl2.available.get idx2 with
        | some true => .ok (fl2, lh2)
        | _ => .error "New address is invalid after allocating page!"
      | none => .ok ({ fl1 with pages := none }, lh2)

/-- `PageFreeList::allocate_target_page` (heap.rs 302-309). -/
def PageFreeList.allocateTargetPage (fl : PageFreeList) (lh : LinkHeap)
    (pn : Nat) : Except String (PageFreeList × LinkHeap) := do
  let index ← fl.getIndex pn
  fl.allocatePageExact lh index pn

/-- `PageFreeList::allocate_page` (heap.rs 271-291): take the head when
non-null; afterwards assert the new head is null or recorded free. -/
def PageFreeList.allocatePage (fl : PageFreeList) (lh : LinkHeap) :
    Except String (PageFreeList × LinkHeap × Option Nat) :=
  match fl.pages with
  | none => .ok (fl, lh, none)
  | some freePage => do
    let (fl1, lh1) ← fl.allocateTargetPage lh freePage
    match fl1.pages with
    | none => .ok (fl1, lh1, some freePage)
    | some newHead => do
      let idx ← fl1.getIndex newHead
      match fl1.available.get idx with
      | some true => .ok (fl1, lh1, some freePage)
      | _ => .error "Invalid page pointer state after page allocation!"

/-- `PageFreeList::deallocate_page_exact` (heap.rs 413-441): if the buddy
block (`index ^ 1`) is recorded free, allocate it out of this grain's
ring and return the coalesced lower block (`index & !1`) for the caller
to free one grain up; otherwise assert the page lies in RAM, set the
bitmap bit and splice the page into the ring. -/
def PageFreeList.deallocatePageExact (fl : PageFreeList) (lh : LinkHeap)
    (index pn : Nat) : Except String (PageFreeList × LinkHeap × Option Nat) := do
  let buddyIndex := index ^^^ 1
  let lowerIndex := index &&& (USIZE_MAX ^^^ 1)
  if (fl.available.get buddyIndex).getD false then do
    let buddyPage ← fl.getPage buddyIndex
    let (fl1, lh1) ← fl.allocateTargetPage lh buddyPage
    let lowerPage ← fl1.getPage lowerIndex
    .ok (fl1, lh1, some lowerPage)
  else
    if pn < NUM_PAGES then
      let fl1 : PageFreeList := { fl with available := fl.available.set index true }
      let (lh1, newHead) := pageLinkDeallocate lh pn fl1.pages
      .ok ({ fl1 with pages := newHead }, lh1, none)
    else .error "Bad page deallocation"

/-- `PageFreeList::deallocate_page_from_index` (heap.rs 391-395). -/
def PageFreeList.deallocatePageFromIndex (fl : PageFreeList) (lh : LinkHeap)
    (index : Nat) : Except String (PageFreeList × LinkHeap × Option Nat) := do
  let pn ← fl.getPage index
  fl.deallocatePageExact lh index pn

/-- The free list of the C4 demonstration: grain 0, two blocks, block 0
recorded free (bit set) and at the head of a singleton ring, block 1
allocated. -/
def doubleFreeList : PageFreeList := ⟨AtomicBitVec.mk [1] 2, some 0, 0⟩

/-- Ring links for the C4 demonstration: page 0 is a self-loop. -/
def doubleFreeLinks : LinkHeap := ⟨fun _ => (0, 0)⟩

/-- C4 (code_bug): deallocating block 0, whose bitmap bit is already 1
(already recorded free, buddy bit clear), does **not** fail any
assertion: the call returns `Ok` with no coalescing, and the bit simply
stays set — although the function's own doc comment promises "Panics if
`page` is already free", and the companion `allocate_page_exact` does
assert the mirror-image condition.  The claimed freeing-side assertion
does not exist in the code. -/
theorem page_free_list_double_free_unchecked :
    ((doubleFreeList.deallocatePageExact doubleFreeLinks 0 0).map
      fun r => (r.1.available, r.1.pages, r.2.2)) =
      .ok (AtomicBitVec.mk [1] 2, some 0, none) ∧
    doubleFreeList.available.get 0 = some true := by
  exact ⟨rfl, by decide⟩

/-- `PageAllocationError` (heap.rs 484-487). -/
inductive PageAllocationError where
  | outOfMemory
deriving DecidableEq

/-- The scan of `PageAllocator::split_block` (heap.rs 555-562):
`grained_lists[target+1..].iter().enumerate().find_map(|(off, fl)|
fl.allocate_page().map(|page| ...))`.  Walks the slice in order, calling
`allocate_page` on each list until one returns a page; a list with a null
head returns `None` without touching any state, which is why the
sequential calls can be replayed structurally here.  Returns the updated
slice, the link heap, and the (offset-into-slice, page) of the first
successful allocation. -/
def splitScan (lh : LinkHeap) :
    List PageFreeList → Except String (List PageFreeList × LinkHeap × Option (Nat × Nat))
  | [] => .ok ([], lh, none)
  | fl :: rest => do
    let (fl1, lh1, res) ← fl.allocatePage lh
    match res with
    | some page => .ok (fl1 :: rest, lh1, some (0, page))
    | none => do
      let (rest2, lh2, r) ← splitScan lh1 rest
      match r with
      | some (off, page) => .ok (fl1 :: rest2, lh2, some (off + 1, page))
      | none => .ok (fl1 :: rest2, lh2, none)

/-- The splitting loop of `PageAllocator::split_block` (heap.rs 563-571):
`while grain > target { grain -= 1; let fl = lists.get(grain).unwrap();
fl.deallocate_page_from_index(fl.get_index(block) + 1); }` — the returned
`Option` of the deallocation is dropped by the source.  `c` counts the
remaining iterations, so the current grain is `target + c - 1`. -/
def splitLoopAux (target : Nat) (block : Nat) :
    Nat → List PageFreeList → LinkHeap → Except String (List PageFreeList × LinkHeap)
  | 0, lists, lh => .ok (lists, lh)
  | c + 1, lists, lh => do
    let grain := target + c
    match lists[grain]? with
    | none => .error "grained_lists.get(grain).unwrap() failed"
    | some fl => do
      let idx ← fl.getIndex block
      let (fl1, lh1, _coalesced) ← fl.deallocatePageFromIndex lh (idx + 1)
      splitLoopAux target block c (lists.set grain fl1) lh1

/-- `PageAllocator::split_block` (heap.rs 554-572): find the smallest
grain above `targetGrain` with a non-empty free list, unlink one block
there, then split it down to `targetGrain`, freeing the upper half at
each intermediate grain and keeping the lower half (the unchanged block
pointer), which is returned. -/
def splitBlock (lists : List PageFreeList) (lh : LinkHeap) (targetGrain : Nat) :
    Except String (List PageFreeList × LinkHeap × Option Nat) := do
  let (suffix2, lh1, found) ← splitScan lh (lists.drop (targetGrain + 1))
  let lists2 := lists.take (targetGrain + 1) ++ suffix2
  match found with
  | none => .ok (lists2, lh1, none)
  | some (off, block) =>
    let grain := targetGrain + 1 + off
    if grain < lists2.length then do
      let (lists3, lh2) ← splitLoopAux targetGrain block (grain - targetGrain) lists2 lh1
      .ok (lists3, lh2, some block)
    else .error "assertion failed: grain < grained_lists.len()"

/-- `PageAllocator::allocate_pages` (heap.rs 577-591): compute the grain
as `ilog2(n)` plus one if `n` exceeds that power of two; out of memory if
no list exists for the grain; otherwise take the head of that grain's
list, or split a larger block when the list is empty. -/
def allocatePages (lists : List PageFreeList) (lh : LinkHeap) (numPages : Nat) :
    Except String (List PageFreeList × LinkHeap × Except PageAllocationError Nat) := do
  if numPages = 0 then .error "num_pages.ilog2() panicked on zero"
  else
    let g0 := Nat.log2 numPages
    let grain := g0 + if 1 <<< g0 < numPages then 1 else 0
    match lists[grain]? with
    | none => .ok (lists, lh, .error .outOfMemory)
    | some fl => do
      let (fl1, lh1, res) ← fl.allocatePage lh
      match res with
      | some block => .ok (lists.set grain fl1, lh1, .ok block)
      | none => do
        let (lists2, lh2, sres) ← splitBlock (lists.set grain fl1) lh1 grain
        match sres with
        | some block => .ok (lists2, lh2, .ok block)
        | none => .ok (lists2, lh2, .error .outOfMemory)

/-- `x &&& (1 <<< i)` is positive exactly when bit `i` of `x` is set. -/
theorem pos_and_shl_iff (x i : Nat) : 0 < x &&& (1 <<< i) ↔ x.testBit i = true := by
  rw [Nat.shiftLeft_eq, Nat.one_mul, Nat.and_two_pow]
  cases h : x.testBit i <;> simp

/-- Reading an in-range bit of a fresh bit vector gives `false`. -/
theorem bv_get_new (n i : Nat) (h : i < n) : (AtomicBitVec.new n).get i = some false := by
  simp only [AtomicBitVec.new, AtomicBitVec.get, List.get?_eq_getElem?]
  rw [if_neg (by omega)]
  have hw : i / 64 < (n + 64 - 1) / 64 := by omega
  rw [List.getElem?_replicate, if_pos hw]
  simp

/-- `set` preserves the length. -/
theorem bv_set_length (bv : AtomicBitVec) (i : Nat) (v : Bool) :
    (bv.set i v).length = bv.length := by
  simp only [AtomicBitVec.set, List.get?_eq_getElem?]
  split
  · rfl
  · match h : bv.inner[i / 64]? with
    | none => rfl
    | some w => rfl

/-- `set` preserves the word count. -/
theorem bv_set_inner_length (bv : AtomicBitVec) (i : Nat) (v : Bool) :
    (bv.set i v).inner.length = bv.inner.length := by
  simp only [AtomicBitVec.set, List.get?_eq_getElem?]
  split
  · rfl
  · match h : bv.inner[i / 64]? with
    | none => rfl
    | some w => simp

/-- Reading back a bit just written. -/
theorem bv_get_set_self (bv : AtomicBitVec) (i : Nat) (v : Bool)
    (h1 : i < bv.length) (h2 : i / 64 < bv.inner.length) :
    (bv.set i v).get i = some v := by
  have hne : ¬i ≥ bv.length := by omega
  obtain ⟨w, hw⟩ : ∃ w, bv.inner[i / 64]? = some w :=
    ⟨bv.inner[i / 64], List.getElem?_eq_getElem h2⟩
  simp only [AtomicBitVec.set, List.get?_eq_getElem?, hw, if_neg hne]
  simp only [AtomicBitVec.get, List.get?_eq_getElem?, if_neg hne]
  rw [List.getElem?_set_self (by simpa using h2)]
  simp only [Option.map_some', Option.some_inj]
  have hoff : i % 64 < 64 := Nat.mod_lt _ (by omega)
  cases v with
  | true =>
    simp only [if_pos]
    apply decide_eq_true
    rw [pos_and_shl_iff]
    simp [Nat.testBit_or, Nat.shiftLeft_eq, Nat.testBit_two_pow_self]
  | false =>
    simp only [Bool.false_eq_true, if_neg, if_false]
    apply decide_eq_false
    rw [pos_and_shl_iff]
    simp only [Nat.shiftLeft_eq, Nat.one_mul, Nat.testBit_and, Nat.testBit_xor,
      Nat.testBit_two_pow_self, USIZE_MAX, Nat.testBit_two_pow_sub_one]
    simp [hoff]

/-- Writing one bit leaves every other bit unchanged. -/
theorem bv_get_set_other (bv : AtomicBitVec) (i j : Nat) (v : Bool) (hij : i ≠ j) :
    (bv.set i v).get j = bv.get j := by
  simp only [AtomicBitVec.set, List.get?_eq_getElem?]
  split
  · rfl
  · match hw : bv.inner[i / 64]? with
    | none => rfl
    | some w =>
      have hwlen : i / 64 < bv.inner.length := by
        by_contra hc
        rw [List.getElem?_eq_none (by omega)] at hw
        cases hw
      simp only [AtomicBitVec.get, List.get?_eq_getElem?]
      by_cases hjl : j ≥ bv.length
      · rw [if_pos hjl, if_pos hjl]
      · rw [if_neg hjl, if_neg hjl]
        by_cases hword : j / 64 = i / 64
        · rw [hword, List.getElem?_set_self (by simpa using hwlen), hw]
          simp only [Option.map_some', Option.some_inj]
          have hbit : j % 64 ≠ i % 64 := by omega
          have hoff : j % 64 < 64 := Nat.mod_lt _ (by omega)
          cases v with
          | true =>
            simp only [if_pos]
            rw [decide_eq_decide, pos_and_shl_iff, pos_and_shl_iff]
            simp [Nat.testBit_or, Nat.shiftLeft_eq,
              Nat.testBit_two_pow_of_ne (Ne.symm hbit)]
          | false =>
            simp only [Bool.false_eq_true, if_neg, if_false]
            rw [decide_eq_decide, pos_and_shl_iff, pos_and_shl_iff]
            simp only [Nat.shiftLeft_eq, Nat.one_mul, Nat.testBit_and, Nat.testBit_xor,
              Nat.testBit_two_pow_of_ne (Ne.symm hbit), USIZE_MAX,
              Nat.testBit_two_pow_sub_one]
            simp [hoff]
        · rw [List.getElem?_set_ne (by omega)]

/-- The grain computed by `allocate_pages` is `ceil(log2 n)`. -/
theorem grain_eq_clog (n : Nat) (h : 1 ≤ n) :
    Nat.log2 n + (if 1 <<< Nat.log2 n < n then 1 else 0) = Nat.clog 2 n := by
  rw [Nat.shiftLeft_eq, Nat.one_mul, Nat.log2_eq_log_two]
  have h1 : 2 ^ Nat.log 2 n ≤ n := Nat.pow_log_le_self 2 (by omega)
  have h2 : n < 2 ^ (Nat.log 2 n + 1) := Nat.lt_pow_succ_log_self (by omega) n
  by_cases hlt : 2 ^ Nat.log 2 n < n
  · rw [if_pos hlt]
    have h3 : Nat.log 2 n < Nat.clog 2 n := (Nat.pow_lt_iff_lt_clog (by omega)).mp hlt
    have h4 : Nat.clog 2 n ≤ Nat.log 2 n + 1 :=
      (Nat.le_pow_iff_clog_le (by omega)).mp (by omega)
    omega
  · rw [if_neg hlt]
    have h4 : Nat.clog 2 n ≤ Nat.log 2 n :=
      (Nat.le_pow_iff_clog_le (by omega)).mp (by omega)
    rcases Nat.eq_zero_or_pos (Nat.log 2 n) with h0 | h0
    · have hn1 : n = 1 := by rw [h0] at h1 h2; omega
      rw [h0, hn1, Nat.clog_one_right]
    · have h5 : 2 ^ (Nat.log 2 n - 1) < n := by
        have hp : 2 ^ (Nat.log 2 n - 1) < 2 ^ Nat.log 2 n :=
          Nat.pow_lt_pow_right (by omega) (by omega)
        omega
      have h6 : Nat.log 2 n - 1 < Nat.clog 2 n := (Nat.pow_lt_iff_lt_clog (by omega)).mp h5
      omega

/-- A successful `allocate_page` returns the head of the list, and the
source asserts forced: the head is aligned to the grain, its bitmap bit
was set, and the resulting bitmap is the old one with that bit cleared;
the grain is untouched. -/
theorem allocatePage_some (fl : PageFreeList) (lh : LinkHeap) (fl1 : PageFreeList)
    (lh1 : LinkHeap) (page : Nat)
    (h : fl.allocatePage lh = .ok (fl1, lh1, some page)) :
    fl.pages = some page ∧ page % 2 ^ fl.grain = 0 ∧
    fl.available.get (page >>> fl.grain) = some true ∧
    fl1.grain = fl.grain ∧
    fl1.available = fl.available.set (page >>> fl.grain) false := by
  unfold PageFreeList.allocatePage at h
  cases hpages : fl.pages with
  | none => rw [hpages] at h; simp at h
  | some freePage =>
    simp only [hpages] at h
    unfold PageFreeList.allocateTargetPage PageFreeList.getIndex at h
    by_cases hal : freePage % 2 ^ fl.grain = 0
    case neg =>
      rw [if_neg hal] at h
      simp [bind, Except.bind] at h
    case pos =>
      rw [if_pos hal] at h
      simp only [bind, Except.bind] at h
      unfold PageFreeList.allocatePageExact at h
      cases hget : fl.available.get (freePage >>> fl.grain) with
      | none => simp only [hget] at h; simp at h
      | some b =>
        cases b with
        | false => simp only [hget] at h; simp at h
        | true =>
          simp only [hget, Bool.not_true, Bool.false_eq_true, if_false,
            bind, Except.bind] at h
          unfold pageLinkAllocate at h
          by_cases hnext : (lh.links freePage).2 = freePage
          · by_cases hprev : (lh.links freePage).1 = (lh.links freePage).2
            · rw [if_pos hnext, if_pos hprev] at h
              simp only [bind, Except.bind] at h
              simp only [Except.ok.injEq, Prod.mk.injEq] at h
              obtain ⟨hf, _, hp⟩ := h
              subst hf
              simp_all
            · rw [if_pos hnext, if_neg hprev] at h
              simp [bind, Except.bind] at h
          · rw [if_neg hnext] at h
            simp only [bind, Except.bind] at h
            unfold PageFreeList.getIndex at h
            by_cases hal2 : (lh.links freePage).2 % 2 ^ fl.grain = 0
            case neg =>
              rw [if_neg (by simpa using hal2)] at h
              simp [bind, Except.bind] at h
            case pos =>
              rw [if_pos (by simpa using hal2)] at h
              simp only [bind, Except.bind] at h
              cases hget2 : (fl.available.set (freePage >>> fl.grain) false).get
                  ((lh.links freePage).2 >>> fl.grain) with
              | none => simp only [hget2] at h; simp at h
              | some b2 =>
                cases b2 with
                | false => simp [hget2, hal2] at h
                | true =>
                  simp [hget2, hal2] at h
                  simp_all
                  obtain ⟨hf, h2⟩ := h
                  rw [← hf, h2.2]
                  exact ⟨rfl, rfl⟩

/-- `allocate_page` on a list with a null head changes nothing. -/
theorem allocatePage_empty (fl : PageFreeList) (lh : LinkHeap) (h : fl.pages = none) :
    fl.allocatePage lh = .ok (fl, lh, none) := by
  unfold PageFreeList.allocatePage
  rw [h]

/-- `allocate_page` returns no page only when the head was null, in which
case nothing changed. -/
theorem allocatePage_none (fl : PageFreeList) (lh : LinkHeap) (fl1 : PageFreeList)
    (lh1 : LinkHeap) (h : fl.allocatePage lh = .ok (fl1, lh1, none)) :
    fl1 = fl ∧ lh1 = lh ∧ fl.pages = none := by
  unfold PageFreeList.allocatePage at h
  cases hpages : fl.pages with
  | none =>
    rw [hpages] at h
    simp only [Except.ok.injEq, Prod.mk.injEq] at h
    exact ⟨h.1.symm, h.2.1.symm, rfl⟩
  | some freePage =>
    simp only [hpages, bind, Except.bind] at h
    cases hcall : fl.allocateTargetPage lh freePage with
    | error e => rw [hcall] at h; cases h
    | ok v =>
      rw [hcall] at h
      cases hpg : v.1.pages with
      | none => simp [hpg] at h
      | some newHead =>
        simp only [hpg, bind, Except.bind] at h
        cases hidx : v.1.getIndex newHead with
        | error e => rw [hidx] at h; cases h
        | ok idx =>
          rw [hidx] at h
          cases hget : v.1.available.get idx with
          | none => simp [hget] at h
          | some b => cases b <;> simp_all

/-- A fresh bit vector never reports a set bit. -/
theorem bv_get_new_ne_true (n i : Nat) : (AtomicBitVec.new n).get i ≠ some true := by
  by_cases h : i < n
  · rw [bv_get_new n i h]; simp
  · simp only [AtomicBitVec.new, AtomicBitVec.get, List.get?_eq_getElem?]
    rw [if_pos (by simpa using h)]
    simp

/-- Characterisation of the `split_block` scan: on success with no find,
nothing changed and every scanned list had a null head; on a find at
offset `off`, the lists before `off` had null heads, the list at `off`
had its head unlinked, and the slice is that single update. -/
theorem splitScan_ok (suffix : List PageFreeList) :
    ∀ (lh : LinkHeap) (suffix2 : List PageFreeList) (lh2 : LinkHeap)
      (found : Option (Nat × Nat)),
      splitScan lh suffix = .ok (suffix2, lh2, found) →
      (found = none → suffix2 = suffix ∧ lh2 = lh ∧ ∀ fl ∈ suffix, fl.pages = none) ∧
      (∀ off page, found = some (off, page) →
        ∃ fl fl1, suffix[off]? = some fl ∧
          (∀ k, k < off → ∃ flk, suffix[k]? = some flk ∧ flk.pages = none) ∧
          fl.allocatePage lh = .ok (fl1, lh2, some page) ∧
          suffix2 = suffix.set off fl1) := by
  induction suffix with
  | nil =>
    intro lh suffix2 lh2 found h
    simp only [splitScan, Except.ok.injEq, Prod.mk.injEq] at h
    obtain ⟨h1, h2, h3⟩ := h
    subst h1; subst h2; subst h3
    refine ⟨fun _ => ⟨rfl, rfl, by simp⟩, fun off page hsome => by cases hsome⟩
  | cons fl rest ih =>
    intro lh suffix2 lh2 found h
    simp only [splitScan, bind, Except.bind] at h
    cases hcall : fl.allocatePage lh with
    | error e => rw [hcall] at h; cases h
    | ok v =>
      obtain ⟨fl1, lh1, res⟩ := v
      simp only [hcall] at h
      cases res with
      | some page =>
        simp only [Except.ok.injEq, Prod.mk.injEq] at h
        obtain ⟨h1, h2, h3⟩ := h
        subst h1; subst h2; subst h3
        constructor
        · intro hnone; cases hnone
        · intro off page2 hsome
          obtain ⟨rfl, rfl⟩ : 0 = off ∧ page = page2 := by
            constructor
            · exact congrArg (fun o => (Option.getD o (0, 0)).1) hsome
            · exact congrArg (fun o => (Option.getD o (0, 0)).2) hsome
          exact ⟨fl, fl1, by simp, fun k hk => by omega, hcall, rfl⟩
      | none =>
        obtain ⟨hfl, hlh, hpg⟩ := allocatePage_none fl lh fl1 lh1 hcall
        rw [hfl, hlh] at h
        cases hrec : splitScan lh rest with
        | error e => simp [hrec] at h
        | ok w =>
          obtain ⟨rest2, lh2w, r⟩ := w
          simp only [hrec] at h
          obtain ⟨hnone, hsome⟩ := ih lh rest2 lh2w r hrec
          cases r with
          | some p =>
            obtain ⟨off, page⟩ := p
            simp only [Except.ok.injEq, Prod.mk.injEq] at h
            obtain ⟨h1, h2, h3⟩ := h
            subst h1; subst h2; subst h3
            constructor
            · intro hc; cases hc
            · intro off2 page2 heq
              obtain ⟨rfl, rfl⟩ : off + 1 = off2 ∧ page = page2 := by
                constructor
                · exact congrArg (fun o => (Option.getD o (0, 0)).1) heq
                · exact congrArg (fun o => (Option.getD o (0, 0)).2) heq
              obtain ⟨flo, flo1, hget, hbefore, hallo, hset⟩ :=
                hsome off page rfl
              refine ⟨flo, flo1, by simpa using hget, ?_, hallo, by simp [hset]⟩
              intro k hh
              match k with
              | 0 => exact ⟨fl, by simp, hpg⟩
              | k + 1 =>
                obtain ⟨flk, hk1, hk2⟩ := hbefore k (by omega)
                exact ⟨flk, by simpa using hk1, hk2⟩
          | none =>
            simp only [Except.ok.injEq, Prod.mk.injEq] at h
            obtain ⟨h1, h2, h3⟩ := h
            subst h1; subst h2; subst h3
            obtain ⟨hr1, hr2, hr3⟩ := hnone rfl
            subst hr1; subst hr2
            constructor
            · intro _
              refine ⟨rfl, rfl, ?_⟩
              intro fl2 hmem
              rcases List.mem_cons.mp hmem with heq | hmem2
              · subst heq; exact hpg
              · exact hr3 fl2 hmem2
            · intro off page hc; cases hc

/-- Alignment propagates to smaller powers. -/
theorem mod_pow_eq_zero_of_le {block m k : Nat} (h : block % 2 ^ m = 0) (hk : k ≤ m) :
    block % 2 ^ k = 0 :=
  Nat.mod_eq_zero_of_dvd ((Nat.pow_dvd_pow 2 hk).trans (Nat.dvd_of_mod_eq_zero h))

/-- For a block aligned to `2^k`, the page one `2^k`-block further is
`block + 2^k`. -/
theorem upper_half_page {block k : Nat} (h : block % 2 ^ k = 0) :
    (block >>> k + 1) <<< k = block + 2 ^ k := by
  rw [Nat.shiftLeft_eq, Nat.shiftRight_eq_div_pow, Nat.add_mul, Nat.one_mul,
    Nat.div_mul_cancel (Nat.dvd_of_mod_eq_zero h)]

/-- `NUM_PAGES` is `2^20`. -/
theorem num_pages_eq : NUM_PAGES = 2 ^ 20 := by norm_num [NUM_PAGES, RAM_LENGTH, PAGE_SIZE]

/-- A block index whose scaled page lies in RAM is below the grain's
bitmap length. -/
theorem index_lt_of_page_lt {m k : Nat} (hm : 0 < m) (h : m <<< k < NUM_PAGES) :
    m < NUM_PAGES >>> k := by
  rw [Nat.shiftLeft_eq, num_pages_eq] at h
  rw [Nat.shiftRight_eq_div_pow, num_pages_eq]
  have hk : k < 20 := by
    by_contra hc
    have h1 : 2 ^ 20 ≤ 2 ^ k := Nat.pow_le_pow_right (by omega) (by omega)
    have := Nat.le_mul_of_pos_left (2 ^ k) hm
    omega
  rw [Nat.pow_div (by omega) (by omega)]
  have hsplit : 2 ^ 20 = 2 ^ (20 - k) * 2 ^ k := by
    rw [← Nat.pow_add]
    congr 1
    omega
  rw [hsplit] at h
  exact Nat.lt_of_mul_lt_mul_right h

/-- Characterisation of the splitting loop when every intermediate grain
list is empty with a fresh bitmap (the state left by a consistent
allocator): each iteration frees the upper half `block + 2^k` into grain
`k`'s list — its bit becomes set and it becomes the head — while the kept
lower half `block` stays recorded allocated; no other grain is touched. -/
theorem splitLoopAux_ok :
    ∀ (c target block : Nat) (lists lists3 : List PageFreeList) (lh lh3 : LinkHeap),
      splitLoopAux target block c lists lh = .ok (lists3, lh3) →
      block % 2 ^ (target + c) = 0 →
      (∀ k, target ≤ k → k < target + c → ∃ flk, lists[k]? = some flk ∧
        flk.pages = none ∧ flk.grain = k ∧
        flk.available = AtomicBitVec.new (NUM_PAGES >>> k)) →
      (∀ k, ¬(target ≤ k ∧ k < target + c) → lists3[k]? = lists[k]?) ∧
      (∀ k, target ≤ k → k < target + c →
        ∃ flk, lists3[k]? = some flk ∧ flk.grain = k ∧
          flk.pages = some (block + 2 ^ k) ∧
          flk.available.get (block >>> k + 1) = some true ∧
          flk.available.get (block >>> k) = some false ∧
          flk.available.length = NUM_PAGES >>> k) := by
  intro c
  induction c with
  | zero =>
    intro target block lists lists3 lh lh3 h _ _
    simp only [splitLoopAux, Except.ok.injEq, Prod.mk.injEq] at h
    obtain ⟨h1, _⟩ := h
    subst h1
    exact ⟨fun k _ => rfl, fun k hk1 hk2 => by omega⟩
  | succ c ih =>
    intro target block lists lists3 lh lh3 h hal hinv
    simp only [splitLoopAux] at h
    obtain ⟨flk, hflk, hpgs, hgr, hav⟩ := hinv (target + c) (by omega) (by omega)
    simp only [hflk] at h
    unfold PageFreeList.getIndex at h
    have halk : block % 2 ^ flk.grain = 0 := by
      rw [hgr]; exact mod_pow_eq_zero_of_le hal (by omega)
    rw [if_pos halk] at h
    simp only [bind, Except.bind] at h
    unfold PageFreeList.deallocatePageFromIndex PageFreeList.getPage at h
    by_cases hbound : (block >>> flk.grain + 1) <<< flk.grain < NUM_PAGES
    case neg =>
      rw [if_neg hbound] at h
      simp [bind, Except.bind] at h
    case pos =>
      rw [if_pos hbound] at h
      simp only [bind, Except.bind] at h
      unfold PageFreeList.deallocatePageExact at h
      have hbuddy : ((flk.available.get (block >>> flk.grain + 1 ^^^ 1)).getD false) = false := by
        rw [hav]
        cases hx : (AtomicBitVec.new (NUM_PAGES >>> (target + c))).get
            (block >>> flk.grain + 1 ^^^ 1) with
        | none => rfl
        | some b =>
          cases b with
          | false => rfl
          | true => exact absurd hx (bv_get_new_ne_true _ _)
      simp only [hbuddy, Bool.false_eq_true, if_false, if_pos hbound, hpgs,
        pageLinkDeallocate] at h
      have hal2 : block % 2 ^ (target + c) = 0 := mod_pow_eq_zero_of_le hal (by omega)
      have hlen : target + c < lists.length := by
        by_contra hc
        rw [List.getElem?_eq_none (by omega)] at hflk
        cases hflk
      have ihres := ih target block _ lists3 _ lh3 h hal2 (by
        intro k hk1 hk2
        rw [List.getElem?_set_ne (by omega)]
        exact hinv k hk1 (by omega))
      obtain ⟨hout, hin⟩ := ihres
      have hidxlt := index_lt_of_page_lt (Nat.succ_pos (block >>> flk.grain)) hbound
      rw [hgr] at hidxlt
      constructor
      · intro k hk
        rw [hout k (by omega), List.getElem?_set_ne (by omega)]
      · intro k hk1 hk2
        by_cases hkc : k < target + c
        · exact hin k hk1 hkc
        · have hkeq : k = target + c := by omega
          rw [hout k (by omega), hkeq, List.getElem?_set_self hlen]
          refine ⟨_, rfl, ?_, ?_, ?_, ?_, ?_⟩
          · simpa using hgr
          · simp only []
            rw [hgr, upper_half_page hal2]
          · simp only []
            rw [hav, hgr]
            exact bv_get_set_self _ _ _ hidxlt
              (by
                simp only [AtomicBitVec.new, List.length_replicate]
                omega)
          · simp only []
            rw [hav, hgr]
            rw [bv_get_set_other _ _ _ _ (by omega)]
            exact bv_get_new _ _ (by omega)
          · simp only []
            rw [hav, hgr, bv_set_length]
            rfl

/-- A defined (`some`) bit read is within the enforced length. -/
theorem bv_get_some_lt (bv : AtomicBitVec) (i : Nat) (b : Bool)
    (h : bv.get i = some b) : i < bv.length := by
  by_contra hc
  simp only [AtomicBitVec.get] at h
  rw [if_pos (by omega)] at h
  cases h

/-- An aligned block whose grain index is a valid bitmap index fits in
RAM together with its whole `2^g`-page extent. -/
theorem block_add_pow_le {block g : Nat} (hal : block % 2 ^ g = 0)
    (hlt : block >>> g < NUM_PAGES >>> g) : block + 2 ^ g ≤ NUM_PAGES := by
  rw [Nat.shiftRight_eq_div_pow, Nat.shiftRight_eq_div_pow] at hlt
  have h1 : block / 2 ^ g + 1 ≤ NUM_PAGES / 2 ^ g := hlt
  have h2 : (block / 2 ^ g + 1) * 2 ^ g ≤ NUM_PAGES / 2 ^ g * 2 ^ g :=
    Nat.mul_le_mul_right _ h1
  have h3 : NUM_PAGES / 2 ^ g * 2 ^ g ≤ NUM_PAGES := Nat.div_mul_le_self _ _
  have h4 : block / 2 ^ g * 2 ^ g = block :=
    Nat.div_mul_cancel (Nat.dvd_of_mod_eq_zero hal)
  have h5 : block + 2 ^ g = (block / 2 ^ g + 1) * 2 ^ g := by
    rw [Nat.add_mul, Nat.one_mul, h4]
  omega

/-- A `some` element lies within the list. -/
theorem list_index_lt_of_some {α : Type _} {l : List α} {i : Nat} {x : α}
    (h : l[i]? = some x) : i < l.length := by
  by_contra hc
  rw [List.getElem?_eq_none (by omega)] at h
  cases h

/-- C7: for `n ≥ 1`, when `allocate_pages(n)` succeeds with a block
(rather than `OutOfMemory`), the internal grain is `⌈log₂ n⌉`
(`grain_eq_clog`), and the returned block is aligned to
`2^⌈log₂ n⌉` pages and lies wholly inside RAM — exactly
`2^⌈log₂ n⌉` contiguous pages.  Either the block was the head of the
grain-`⌈log₂ n⌉` free list, its bit set beforehand and cleared by the
allocation; or that list was empty and the block was unlinked from the
smallest non-empty higher grain `⌈log₂ n⌉ + 1 + off` (every list
strictly between had a null head), its bit there cleared, and the loop
of `split_block` freed the upper half `block + 2^k` into every
intermediate grain `k` (it becomes that list's head, its bit set, while
the kept lower half's bit stays clear); all other grain lists are
untouched.  `hinv` is the allocator's consistency invariant on the
input: list `k` serves grain `k`, its bitmap covers `NUM_PAGES >>> k`
bits, and a list with a null head records no free block. -/
theorem allocate_pages_buddy_correct (lists : List PageFreeList) (lh : LinkHeap)
    (n : Nat) (lists3 : List PageFreeList) (lh3 : LinkHeap) (block : Nat)
    (hn : 1 ≤ n)
    (hinv : ∀ k flk, lists[k]? = some flk → flk.grain = k ∧
      flk.available.length = NUM_PAGES >>> k ∧
      (flk.pages = none → flk.available = AtomicBitVec.new (NUM_PAGES >>> k)))
    (h : allocatePages lists lh n = .ok (lists3, lh3, .ok block)) :
    block % 2 ^ Nat.clog 2 n = 0 ∧
    block + 2 ^ Nat.clog 2 n ≤ NUM_PAGES ∧
    ((∃ fl fl1,
        lists[Nat.clog 2 n]? = some fl ∧
        fl.pages = some block ∧
        fl.available.get (block >>> Nat.clog 2 n) = some true ∧
        fl1.available = fl.available.set (block >>> Nat.clog 2 n) false ∧
        lists3 = lists.set (Nat.clog 2 n) fl1) ∨
      (∃ off fl fl1,
        (∃ flg, lists[Nat.clog 2 n]? = some flg ∧ flg.pages = none) ∧
        (∀ j, Nat.clog 2 n < j → j < Nat.clog 2 n + 1 + off →
          ∃ flj, lists[j]? = some flj ∧ flj.pages = none) ∧
        lists[Nat.clog 2 n + 1 + off]? = some fl ∧
        fl.pages = some block ∧
        fl.available.get (block >>> (Nat.clog 2 n + 1 + off)) = some true ∧
        lists3[Nat.clog 2 n + 1 + off]? = some fl1 ∧
        fl1.available = fl.available.set (block >>> (Nat.clog 2 n + 1 + off)) false ∧
        (∀ k, Nat.clog 2 n ≤ k → k < Nat.clog 2 n + 1 + off →
          ∃ flk, lists3[k]? = some flk ∧ flk.grain = k ∧
            flk.pages = some (block + 2 ^ k) ∧
            flk.available.get (block >>> k + 1) = some true ∧
            flk.available.get (block >>> k) = some false) ∧
        (∀ k, ¬(Nat.clog 2 n ≤ k ∧ k ≤ Nat.clog 2 n + 1 + off) →
          lists3[k]? = lists[k]?))) := by
  unfold allocatePages at h
  rw [if_neg (by omega)] at h
  simp only [bind, Except.bind] at h
  rw [grain_eq_clog n hn] at h
  cases hfl : lists[Nat.clog 2 n]? with
  | none => rw [hfl] at h; simp at h
  | some fl =>
    simp only [hfl] at h
    have hGlt : Nat.clog 2 n < lists.length := list_index_lt_of_some hfl
    cases hcall : fl.allocatePage lh with
    | error e => rw [hcall] at h; cases h
    | ok v =>
      obtain ⟨fl1, lh1, res⟩ := v
      simp only [hcall] at h
      cases res with
      | some blk =>
        simp only [Except.ok.injEq, Prod.mk.injEq] at h
        obtain ⟨h1, h2, h3⟩ := h
        subst h3
        obtain ⟨hpag, hal, hbit, hgr1, hav1⟩ := allocatePage_some fl lh fl1 lh1 blk hcall
        obtain ⟨hgrf, hlenf, _⟩ := hinv _ _ hfl
        rw [hgrf] at hal hbit hav1
        have hidx := bv_get_some_lt _ _ _ hbit
        rw [hlenf] at hidx
        exact ⟨hal, block_add_pow_le hal hidx,
          .inl ⟨fl, fl1, rfl, hpag, hbit, hav1, h1.symm⟩⟩
      | none =>
        obtain ⟨hfl1, hlh1, hpg⟩ := allocatePage_none fl lh fl1 lh1 hcall
        rw [hfl1, hlh1] at h
        simp only [bind, Except.bind] at h
        unfold splitBlock at h
        simp only [bind, Except.bind] at h
        have hsetid : ∀ k : Nat, (lists.set (Nat.clog 2 n) fl)[k]? = lists[k]? := by
          intro k
          by_cases hk : k = Nat.clog 2 n
          · subst hk
            rw [List.getElem?_set_self hGlt, hfl]
          · exact List.getElem?_set_ne (by omega)
        have hsuffix_get : ∀ j : Nat,
            ((lists.set (Nat.clog 2 n) fl).drop (Nat.clog 2 n + 1))[j]? =
            lists[Nat.clog 2 n + 1 + j]? := by
          intro j
          rw [List.getElem?_drop]
          exact hsetid _
        cases hscan : splitScan lh ((lists.set (Nat.clog 2 n) fl).drop (Nat.clog 2 n + 1)) with
        | error e => rw [hscan] at h; cases h
        | ok w =>
          obtain ⟨suffix2, lh2, found⟩ := w
          simp only [hscan] at h
          obtain ⟨hnone, hsome⟩ := splitScan_ok _ lh suffix2 lh2 found hscan
          cases found with
          | none => simp at h
          | some p =>
            obtain ⟨off, blk0⟩ := p
            simp only [] at h
            obtain ⟨flo, flo1, hgeto, hbefore, hallo, hset2⟩ := hsome off blk0 rfl
            have hofflt0 := list_index_lt_of_some hgeto
            have hofflt : off < lists.length - (Nat.clog 2 n + 1) := by
              rw [List.length_drop, List.length_set] at hofflt0
              exact hofflt0
            have htklen :
                ((lists.set (Nat.clog 2 n) fl).take (Nat.clog 2 n + 1)).length =
                Nat.clog 2 n + 1 := by
              simp only [List.length_take, List.length_set]
              omega
            have hglen : Nat.clog 2 n + 1 + off <
                ((lists.set (Nat.clog 2 n) fl).take (Nat.clog 2 n + 1) ++ suffix2).length := by
              rw [List.length_append, htklen, hset2, List.length_set,
                List.length_drop, List.length_set]
              omega
            rw [if_pos hglen] at h
            rw [show Nat.clog 2 n + 1 + off - Nat.clog 2 n = off + 1 from by omega] at h
            cases hloop : splitLoopAux (Nat.clog 2 n) blk0 (off + 1)
                ((lists.set (Nat.clog 2 n) fl).take (Nat.clog 2 n + 1) ++ suffix2) lh2 with
            | error e => rw [hloop] at h; cases h
            | ok w2 =>
              obtain ⟨lists3x, lh3x⟩ := w2
              simp only [hloop, Except.ok.injEq, Prod.mk.injEq] at h
              obtain ⟨h1, h2, h3⟩ := h
              subst h1
              subst h2
              subst h3
              have hL2 : ∀ k : Nat,
                  ((lists.set (Nat.clog 2 n) fl).take (Nat.clog 2 n + 1) ++ suffix2)[k]? =
                  if k = Nat.clog 2 n + 1 + off then some flo1 else lists[k]? := by
                intro k
                by_cases hk1 : k < Nat.clog 2 n + 1
                · rw [if_neg (by omega), List.getElem?_append_left (by rw [htklen]; omega),
                    List.getElem?_take, if_pos hk1]
                  exact hsetid k
                · rw [List.getElem?_append_right (by rw [htklen]; omega), htklen, hset2]
                  by_cases hk2 : k = Nat.clog 2 n + 1 + off
                  · rw [if_pos hk2, show k - (Nat.clog 2 n + 1) = off from by omega,
                      List.getElem?_set_self hofflt0]
                  · rw [if_neg hk2, List.getElem?_set_ne (by omega), hsuffix_get,
                      show Nat.clog 2 n + 1 + (k - (Nat.clog 2 n + 1)) = k from by omega]
              have hflo_lists : lists[Nat.clog 2 n + 1 + off]? = some flo := by
                rw [← hsuffix_get off]
                exact hgeto
              obtain ⟨hgro, hleno, _⟩ := hinv _ _ hflo_lists
              obtain ⟨hpago, halo, hbito, hgro1, havo1⟩ :=
                allocatePage_some flo lh flo1 lh2 blk0 hallo
              rw [hgro] at halo hbito havo1
              have halG : blk0 % 2 ^ (Nat.clog 2 n + (off + 1)) = 0 := by
                rw [show Nat.clog 2 n + (off + 1) = Nat.clog 2 n + 1 + off from by omega]
                exact halo
              have hloopinv : ∀ k : Nat, Nat.clog 2 n ≤ k → k < Nat.clog 2 n + (off + 1) →
                  ∃ flk,
                    ((lists.set (Nat.clog 2 n) fl).take (Nat.clog 2 n + 1) ++ suffix2)[k]? =
                      some flk ∧
                    flk.pages = none ∧ flk.grain = k ∧
                    flk.available = AtomicBitVec.new (NUM_PAGES >>> k) := by
                intro k hk1 hk2
                rw [hL2 k, if_neg (by omega)]
                by_cases hkG : k = Nat.clog 2 n
                · subst hkG
                  exact ⟨fl, hfl, hpg, (hinv _ _ hfl).1, (hinv _ _ hfl).2.2 hpg⟩
                · obtain ⟨flj, hflj, hfljpg⟩ :=
                    hbefore (k - (Nat.clog 2 n + 1)) (by omega)
                  rw [hsuffix_get,
                    show Nat.clog 2 n + 1 + (k - (Nat.clog 2 n + 1)) = k from by omega] at hflj
                  exact ⟨flj, hflj, hfljpg, (hinv _ _ hflj).1, (hinv _ _ hflj).2.2 hfljpg⟩
              obtain ⟨hout, hin⟩ :=
                splitLoopAux_ok (off + 1) (Nat.clog 2 n) blk0 _ lists3x lh2 lh3x
                  hloop halG hloopinv
              have hidxo := bv_get_some_lt _ _ _ hbito
              rw [hleno] at hidxo
              have hbig := block_add_pow_le halo hidxo
              have hple : (2 : Nat) ^ Nat.clog 2 n ≤ 2 ^ (Nat.clog 2 n + 1 + off) :=
                Nat.pow_le_pow_right (by omega) (by omega)
              refine ⟨mod_pow_eq_zero_of_le halG (by omega), by omega,
                .inr ⟨off, flo, flo1, ⟨fl, rfl, hpg⟩, ?_, hflo_lists, hpago, hbito,
                  ?_, havo1, ?_, ?_⟩⟩
              · intro j hj1 hj2
                obtain ⟨flj, hflj, hfljpg⟩ :=
                  hbefore (j - (Nat.clog 2 n + 1)) (by omega)
                rw [hsuffix_get,
                  show Nat.clog 2 n + 1 + (j - (Nat.clog 2 n + 1)) = j from by omega] at hflj
                exact ⟨flj, hflj, hfljpg⟩
              · rw [hout (Nat.clog 2 n + 1 + off) (by omega), hL2, if_pos rfl]
              · intro k hk1 hk2
                obtain ⟨flk, hflk3, hgrk, hpgk, hbt, hbf, _⟩ := hin k hk1 (by omega)
                exact ⟨flk, hflk3, hgrk, hpgk, hbt, hbf⟩
              · intro k hk
                rw [hout k (by omega), hL2, if_neg (by omega)]

/-- Grain lists for a concrete buddy-allocator run: grain 0 is empty
with a fresh bitmap, grain 1 holds one free 2-page block at page 2
(bitmap bit 1 set, ring head 2). -/
def buddyDemoLists : List PageFreeList :=
  [PageFreeList.new NUM_PAGES 0,
   ⟨(AtomicBitVec.new (NUM_PAGES >>> 1)).set 1 true, some 2, 1⟩]

/-- Ring links for the demo: page 2 is a self-loop. -/
def buddyDemoLinks : LinkHeap := ⟨fun _ => (2, 2)⟩

/-- The demo lists satisfy the allocator's consistency invariant. -/
theorem buddyDemoLists_inv : ∀ k flk, buddyDemoLists[k]? = some flk →
    flk.grain = k ∧ flk.available.length = NUM_PAGES >>> k ∧
    (flk.pages = none → flk.available = AtomicBitVec.new (NUM_PAGES >>> k)) := by
  intro k flk hk
  match k with
  | 0 =>
    simp only [buddyDemoLists, List.getElem?_cons_zero, Option.some.injEq] at hk
    subst hk
    exact ⟨rfl, rfl, fun _ => rfl⟩
  | 1 =>
    simp only [buddyDemoLists, List.getElem?_cons_succ, List.getElem?_cons_zero,
      Option.some.injEq] at hk
    subst hk
    refine ⟨rfl, ?_, fun hc => nomatch hc⟩
    rw [bv_set_length]
    simp [AtomicBitVec.new]
  | k + 2 => simp [buddyDemoLists] at hk

set_option maxRecDepth 8000 in
/-- C7 witness: on the demo state `allocate_pages(1)` succeeds with a
block, and the main theorem yields its alignment and bounds. -/
theorem allocate_pages_buddy_correct_witness :
    ∃ (lists3 : List PageFreeList) (lh3 : LinkHeap) (block : Nat),
      allocatePages buddyDemoLists buddyDemoLinks 1 = .ok (lists3, lh3, .ok block) ∧
      block % 2 ^ Nat.clog 2 1 = 0 ∧
      block + 2 ^ Nat.clog 2 1 ≤ NUM_PAGES := by
  have hlog : Nat.log2 1 = 0 := by simp [Nat.log2]
  have hrun : allocatePages buddyDemoLists buddyDemoLinks 1 =
      .ok ([⟨(AtomicBitVec.new (NUM_PAGES >>> 0)).set 3 true, some 3, 0⟩,
            ⟨((AtomicBitVec.new (NUM_PAGES >>> 1)).set 1 true).set 1 false, none, 1⟩],
        (buddyDemoLinks.setPrev 3 3).setNext 3 3, .ok 2) := by
    unfold allocatePages
    simp only [hlog]
    rfl
  have hmain := allocate_pages_buddy_correct buddyDemoLists buddyDemoLinks 1 _ _ _
    (by decide) buddyDemoLists_inv hrun
  exact ⟨_, _, _, hrun, hmain.1, hmain.2.1⟩

/-- Number of `FreeLink` slots in a slab page:
`PAGE_SIZE / size_of::<FreeLink>()` (heap.rs 776-780) — a `FreeLink` is
two `AtomicU16`, 4 bytes, so 1024 slots. -/
def SLAB_LINKS : Nat := PAGE_SIZE / 4

/-- Store a new `prev` in slot `p` of a slab page. -/
def setPrevLink (m : Nat → Nat × Nat) (p v : Nat) : Nat → Nat × Nat :=
  fun q => if q = p then (v, (m q).2) else m q

/-- Store a new `next` in slot `p` of a slab page. -/
def setNextLink (m : Nat → Nat × Nat) (p v : Nat) : Nat → Nat × Nat :=
  fun q => if q = p then ((m q).1, v) else m q

/-- `SlabHeader` (heap.rs 775-788): the page as a map from slot index to
the `(prev, next)` pair of its `FreeLink`, the slot size, the number of
live allocations (`u16`, modelled modulo `2^16`) and the head `offset`
of the free ring. -/
structure SlabHeader where
  pageMemory : Nat → Nat × Nat
  slotSize : Nat
  inUse : Nat
  offset : Option Nat

/-- `SlabHeader::allocate_at` (heap.rs 879-905): take the `FreeLink` at
`index` out of the free ring.  If its `prev` equals its `next` it was
the last free slot and the head becomes `None`; otherwise the
neighbours are stitched together and the head moves to the old `next`.
`in_use` is incremented (wrapping, as the release build does). -/
def SlabHeader.allocateAt (s : SlabHeader) (index : Nat) :
    Except String (SlabHeader × Nat) :=
  if index ≥ SLAB_LINKS then .error "Invalid offset when allocating in slab!"
  else
    let prevIndex := (s.pageMemory index).1
    let nextIndex := (s.pageMemory index).2
    if prevIndex = nextIndex then
      .ok ({ s with offset := none, inUse := (s.inUse + 1) % 2 ^ 16 }, index)
    else
      if prevIndex ≥ SLAB_LINKS then .error "Invalid prev offset found when allocating!"
      else if nextIndex ≥ SLAB_LINKS then .error "Invalid next offset found when allocating!"
      else
        .ok ({ s with
          pageMemory := setPrevLink (setNextLink s.pageMemory prevIndex nextIndex)
            nextIndex prevIndex,
          offset := some nextIndex,
          inUse := (s.inUse + 1) % 2 ^ 16 }, index)

/-- `SlabHeader::allocate` (heap.rs 858-861): allocate at the current
head, or return no pointer when the page is full. -/
def SlabHeader.allocate (s : SlabHeader) : Except String (SlabHeader × Option Nat) :=
  match s.offset with
  | none => .ok (s, none)
  | some off =>
    match s.allocateAt off with
    | .error e => .error e
    | .ok (s1, idx) => .ok (s1, some idx)

/-- `SlabHeader::deallocate_at` (heap.rs 923-959): assert the index is
slot-aligned and in bounds.  With a live head `prev_index`, splice the
slot right after it (`swap` reads the old `next` and redirects it), the
head staying put; with a null head the slot becomes a self-loop and the
new head.  `in_use` is decremented (wrapping, as the release build
does). -/
def SlabHeader.deallocateAt (s : SlabHeader) (index : Nat) : Except String SlabHeader :=
  if s.slotSize = 0 then
    .error "attempt to calculate the remainder with a divisor of zero"
  else if index % s.slotSize ≠ 0 then
    .error "Deallocation index is not divisible by slot size!"
  else if index ≥ SLAB_LINKS then .error "Deallocation index is out of bounds!"
  else
    match s.offset with
    | some prevIndex =>
      if prevIndex ≥ SLAB_LINKS then .error "Slab header stored invalid offset!"
      else
        let nextIndex := (s.pageMemory prevIndex).2
        let m1 := setNextLink s.pageMemory prevIndex index
        if nextIndex ≥ SLAB_LINKS then .error "Slab header stored invalid offset!"
        else
          let m2 := setPrevLink m1 nextIndex index
          let m3 := setPrevLink m2 index prevIndex
          let m4 := setNextLink m3 index nextIndex
          .ok { s with pageMemory := m4, inUse := (s.inUse + 2 ^ 16 - 1) % 2 ^ 16 }
    | none =>
      let m1 := setPrevLink s.pageMemory index index
      let m2 := setNextLink m1 index index
      .ok { s with
        pageMemory := m2,
        offset := some index,
        inUse := (s.inUse + 2 ^ 16 - 1) % 2 ^ 16 }

/-- A freshly initialised four-slot slab ring (slot size 256), exactly
the state `SlabHeader::new` builds: each used slot links to its
neighbours, head at slot 0, no live allocations. -/
def slabDemo : SlabHeader :=
  ⟨fun i => if i = 0 then (768, 256) else if i = 256 then (0, 512)
    else if i = 512 then (256, 768) else if i = 768 then (512, 0) else (0, 0),
   256, 0, some 0⟩

/-- C5 (corrected): allocating from the fresh four-slot ring and
immediately freeing the returned slot restores `in_use` but **not** the
head: the head before is slot 0, afterwards it is slot 256 — the free
forgets to move the head back, it splices the slot after the current
head instead.  The claimed round-trip identity of the head index fails
on every slab with more than one free slot. -/
theorem slab_alloc_free_counterexample :
    (slabDemo.allocate.bind fun r =>
        (match r.2 with
          | some i => r.1.deallocateAt i
          | none => Except.error "allocation returned no slot").map
          fun (s2 : SlabHeader) => (s2.inUse, s2.offset)) = .ok (0, some 256) ∧
    slabDemo.inUse = 0 ∧ slabDemo.offset = some 0 ∧ (some 256 : Option Nat) ≠ some 0 := by
  refine ⟨rfl, rfl, rfl, by decide⟩

/-- C5 amended: from any slab state with head `h` in bounds, slot size
positive, `h` slot-aligned, `in_use` a real `u16`, and the `prev`,
`next` and next-of-`next` links of `h` in bounds, one allocation (which
returns slot `h`) followed immediately by its deallocation succeeds and
restores `in_use` exactly, while the head ends at `h` only when `h` was
the last free slot (`prev = next`); otherwise the head ends at the old
`next` of `h`. -/
theorem slab_alloc_free_amended (s : SlabHeader) (h : Nat)
    (hoff : s.offset = some h) (hh : h < SLAB_LINKS)
    (hslot : 0 < s.slotSize) (halign : h % s.slotSize = 0)
    (huse : s.inUse < 2 ^ 16)
    (hp : (s.pageMemory h).1 < SLAB_LINKS) (hn : (s.pageMemory h).2 < SLAB_LINKS)
    (hnn : (s.pageMemory (s.pageMemory h).2).2 < SLAB_LINKS) :
    (s.allocate.map fun r => r.2) = .ok (some h) ∧
    ((s.allocate.bind fun r =>
        match r.2 with
        | some i => r.1.deallocateAt i
        | none => Except.error "allocation returned no slot").map
      fun (s2 : SlabHeader) => (s2.inUse, s2.offset)) =
      .ok (s.inUse, if (s.pageMemory h).1 = (s.pageMemory h).2 then some h
                    else some (s.pageMemory h).2) := by
  have hslot0 : s.slotSize ≠ 0 := by omega
  by_cases hpn : (s.pageMemory h).1 = (s.pageMemory h).2
  case pos =>
    have halloc : s.allocate =
        .ok ({ s with offset := none, inUse := (s.inUse + 1) % 2 ^ 16 }, some h) := by
      unfold SlabHeader.allocate SlabHeader.allocateAt
      rw [hoff]
      simp only [ge_iff_le]
      rw [if_neg (by omega), if_pos hpn]
    refine ⟨by rw [halloc]; rfl, ?_⟩
    rw [halloc]
    simp only [Except.bind]
    unfold SlabHeader.deallocateAt
    rw [if_neg hslot0, if_neg (not_not_intro halign)]
    simp only [ge_iff_le]
    rw [if_neg (by omega)]
    simp only [Except.map, Except.ok.injEq, Prod.mk.injEq]
    exact ⟨by omega, by rw [if_pos hpn]⟩
  case neg =>
    have halloc : s.allocate =
        .ok ({ s with
          pageMemory := setPrevLink (setNextLink s.pageMemory (s.pageMemory h).1
            (s.pageMemory h).2) (s.pageMemory h).2 (s.pageMemory h).1,
          offset := some (s.pageMemory h).2,
          inUse := (s.inUse + 1) % 2 ^ 16 }, some h) := by
      unfold SlabHeader.allocate SlabHeader.allocateAt
      rw [hoff]
      simp only [ge_iff_le]
      rw [if_neg (by omega), if_neg hpn, if_neg (by omega), if_neg (by omega)]
    refine ⟨by rw [halloc]; rfl, ?_⟩
    rw [halloc]
    simp only [Except.bind]
    unfold SlabHeader.deallocateAt
    rw [if_neg hslot0, if_neg (not_not_intro halign)]
    simp only [ge_iff_le]
    rw [if_neg (by omega)]
    have hread : (setPrevLink (setNextLink s.pageMemory (s.pageMemory h).1
        (s.pageMemory h).2) (s.pageMemory h).2 (s.pageMemory h).1
        (s.pageMemory h).2).2 = (s.pageMemory (s.pageMemory h).2).2 := by
      simp only [setPrevLink, setNextLink, if_pos rfl]
      rw [if_neg (show ¬(s.pageMemory h).2 = (s.pageMemory h).1 from
        fun hc => hpn hc.symm)]
      simp
    rw [if_neg (show ¬(s.pageMemory h).2 ≥ SLAB_LINKS by omega), hread,
      if_neg (show ¬(s.pageMemory (s.pageMemory h).2).2 ≥ SLAB_LINKS by omega)]
    simp only [Except.map, Except.ok.injEq, Prod.mk.injEq]
    exact ⟨by omega, by rw [if_neg hpn]⟩

/-- C5 witness: the amended statement holds on the fresh four-slot
ring: the allocation takes slot 0, the round trip succeeds with
`in_use` back to 0, and the final head is the old `next` of slot 0. -/
theorem slab_alloc_free_amended_witness :
    (slabDemo.allocate.map fun r => r.2) = .ok (some 0) ∧
    ((slabDemo.allocate.bind fun r =>
        match r.2 with
        | some i => r.1.deallocateAt i
        | none => Except.error "allocation returned no slot").map
      fun (s2 : SlabHeader) => (s2.inUse, s2.offset)) =
      .ok (slabDemo.inUse,
        if (slabDemo.pageMemory 0).1 = (slabDemo.pageMemory 0).2 then some 0
        else some (slabDemo.pageMemory 0).2) :=
  slab_alloc_free_amended slabDemo 0 rfl (by decide) (by decide) (by decide)
    (by decide) (by decide) (by decide) (by decide)

/-- `PagePermissions` (mmu.rs 109-116). -/
inductive PagePermissions where
  | readOnly
  | readWrite
  | executeOnly
  | readExecute
  | readWriteExecute
deriving DecidableEq

/-- The discriminant of a `PagePermissions` variant. -/
def PagePermissions.bits : PagePermissions → Nat
  | .readOnly => 1
  | .readWrite => 3
  | .executeOnly => 4
  | .readExecute => 5
  | .readWriteExecute => 7

/-- `PagePermissions::read_allowed` (mmu.rs 120-122). -/
def PagePermissions.readAllowed (p : PagePermissions) : Bool := decide (0 < p.bits &&& 1)

/-- `PagePermissions::write_allowed` (mmu.rs 125-127). -/
def PagePermissions.writeAllowed (p : PagePermissions) : Bool := decide (0 < p.bits &&& 2)

/-- `PagePermissions::execute_allowed` (mmu.rs 130-132). -/
def PagePermissions.executeAllowed (p : PagePermissions) : Bool := decide (0 < p.bits &&& 4)

/-- The 44-bit physical-page-number mask `0xFFF_FFFF_FFFF` (mmu.rs 334). -/
def PPN_MASK : Nat := 0xFFFFFFFFFFF

/-- The bit update of `impl_bit_access!` (mmu.rs 19-40):
`bitmask = usize::from(b) << shift; data = (data & !bitmask) | bitmask`.
For `b = false` the bitmask is zero, so the update is a **no-op** — the
source never clears a bit through these setters. -/
def setBitBugged (d : Nat) (shift : Nat) (b : Bool) : Nat :=
  let bitmask := (if b then 1 else 0) <<< shift
  (d &&& (USIZE_MAX ^^^ bitmask)) ||| bitmask

/-- `is_valid` (mmu.rs 23-25 for bit 0). -/
def isValid (d : Nat) : Bool := decide (0 < (d >>> 0) &&& 1)

/-- `is_readable` (bit 1). -/
def isReadable (d : Nat) : Bool := decide (0 < (d >>> 1) &&& 1)

/-- `is_writable` (bit 2). -/
def isWritable (d : Nat) : Bool := decide (0 < (d >>> 2) &&& 1)

/-- `is_executable` (bit 3). -/
def isExecutable (d : Nat) : Bool := decide (0 < (d >>> 3) &&& 1)

/-- `Sv39PageTableEntry::is_pointer` (mmu.rs 272-274). -/
def isPointer (d : Nat) : Bool := !(isReadable d || isWritable d || isExecutable d)

/-- `set_to_direct_mapping` (mmu.rs 400-419) on raw entry data:
`set_valid(false)` (a no-op by `setBitBugged`), then the full
physical-page-number field (bits 10-53) is replaced by
`(pa & 0xFFF_FFFF_FFFF) >> 12`, the permission bits are or-ed in
(`apply_permissions`; clearing writes are no-ops), and the valid bit is
set.  The reference-count bookkeeping touches no entry data. -/
def setToDirectMapping (d pa : Nat) (perms : PagePermissions) : Nat :=
  let d1 := setBitBugged d 0 false
  let d2 := (d1 &&& (USIZE_MAX ^^^ (PPN_MASK <<< 10))) ^^^ (((pa &&& PPN_MASK) >>> 12) <<< 10)
  let d3 := setBitBugged d2 1 perms.readAllowed
  let d4 := setBitBugged d3 2 perms.writeAllowed
  let d5 := setBitBugged d4 3 perms.executeAllowed
  setBitBugged d5 0 true

/-- `set_to_pointer` (mmu.rs 421-453) on raw entry data.  The stored
subtable address is elided: the embedding follows the structural child
of a `PTEntry.ptr` instead of dereferencing physical memory, so the
physical-page-number field is simply cleared here.  The permission
clearing writes are the same no-ops as in the source — stale permission
bits survive —, and the reference-count writes (reserved bits of
entries 6 and 7 of the subtable) touch nothing the embedded operations
read. -/
def setToPointerData (d : Nat) : Nat :=
  let d1 := setBitBugged d 0 false
  let d2 := d1 &&& (USIZE_MAX ^^^ (PPN_MASK <<< 10))
  let d3 := setBitBugged d2 1 false
  let d4 := setBitBugged d3 2 false
  let d5 := setBitBugged d4 3 false
  setBitBugged d5 0 true

/-- `get_physical_page_number_for_level` (mmu.rs 339-363): level 0 is
bits 10-18, level 1 bits 19-27, level 2 bits 28-53. -/
def getPPNLevel (d : Nat) : Nat → Option Nat
  | 0 => some ((d &&& (0x1FF <<< 10)) >>> 10)
  | 1 => some ((d &&& (0x1FF <<< 19)) >>> 19)
  | 2 => some ((d &&& (0x3FFFFFF <<< 28)) >>> 28)
  | _ => none

mutual
/-- `Sv39PageTable` (mmu.rs 1020-1047): 512 entries plus the table
level.  The source stores the level in the reserved bits of entry 0
(`set_level`/`level`); no modelled operation writes those bits except
table creation, so the embedding carries the level as a field kept in
sync with entry 0's data. -/
inductive PTable where
  | mk (level : Nat) (entries : List PTEntry)

/-- One page-table entry: its raw 64-bit data, plus — when the entry
was installed as a pointer — the structural subtable standing in for
the physical table at the stored address. -/
inductive PTEntry where
  | raw (data : Nat)
  | ptr (data : Nat) (sub : PTable)
end

/-- The table's level. -/
def PTable.level : PTable → Nat
  | .mk l _ => l

/-- The table's entries. -/
def PTable.entries : PTable → List PTEntry
  | .mk _ es => es

/-- An entry's raw data. -/
def PTEntry.data : PTEntry → Nat
  | .raw d => d
  | .ptr d _ => d

/-- `new_subtable` (mmu.rs 1071-1089): a zeroed table whose entry 0
holds the level in the reserved bits (`set_level`, shift 8). -/
def newSubtableEntries (lvl : Nat) : List PTEntry :=
  (List.replicate 512 (PTEntry.raw 0)).set 0 (.raw (lvl <<< 8))

/-- The entry index `(v & (0x1FF << (12+9*lvl))) >> (12+9*lvl)` used by
both `set_map` (mmu.rs 1235-1236) and `map` (mmu.rs 1305-1306). -/
def entryIndex (lvl v : Nat) : Nat :=
  (v &&& (0x1FF <<< (12 + 9 * lvl))) >>> (12 + 9 * lvl)

/-- `VirtualAddressSetMappingError` (plus the panics of `set_map` and
the dangling-pointer artifact of the structural embedding). -/
inductive SetMapError where
  | impossibleLevel
  | mappingIsActivePointer
  | addressAlreadyInUse
  | panicIndexOutOfBounds
  | danglingPointer
deriving DecidableEq

/-- `VirtualAddressTranslationError` (plus the panics of `map` and the
dangling-pointer artifact of the structural embedding). -/
inductive TranslateError where
  | upperBitsMalformed
  | invalidEntry
  | levelZeroPointer
  | panicIndexOutOfBounds
  | danglingPointer
deriving DecidableEq

/-- The upper-bits guard of `map` (mmu.rs 1294-1300): bits 39-63 must
all equal bit 38. -/
def upperBitsOk (v : Nat) : Bool :=
  let highBit := (v &&& (1 <<< 38)) >>> 38
  !((List.range' 39 25).any fun i => decide (((v &&& (1 <<< i)) >>> i) ≠ highBit))

/-- `set_map` restricted to the fresh subtables produced by
`new_subtable` (mmu.rs 1254-1264): the source recursion on a fresh
table always finds an invalid entry, so it either installs the direct
mapping (at the target level) or creates the next fresh subtable and
points to it; this unfolding of the source's self-call is structural in
the table level. -/
def setMapFresh (c v p L : Nat) (perms : PagePermissions) :
    Except SetMapError PTable :=
  if L > c then .error .impossibleLevel
  else if L = c then
    .ok (.mk c ((newSubtableEntries c).set (entryIndex c v)
      (.raw (setToDirectMapping
        (((newSubtableEntries c)[entryIndex c v]?).getD (.raw 0)).data p perms))))
  else
    match c with
    | 0 => .error .impossibleLevel
    | c1 + 1 =>
      match setMapFresh c1 v p L perms with
      | .error e => .error e
      | .ok sub => .ok (.mk (c1 + 1) ((newSubtableEntries (c1 + 1)).set
          (entryIndex (c1 + 1) v)
          (.ptr (setToPointerData
            (((newSubtableEntries (c1 + 1))[entryIndex (c1 + 1) v]?).getD
              (.raw 0)).data) sub)))

/-- `Sv39PageTable::set_map` (mmu.rs 1223-1277): reject impossible
levels; at the target level install a direct mapping into an invalid
entry (otherwise report an active pointer or an address in use); above
the target level descend into an existing pointer, or create a fresh
subtable chain (`setMapFresh`) behind an invalid entry and point to
it. -/
def setMap (t : PTable) (v p L : Nat) (perms : PagePermissions) :
    Except SetMapError PTable :=
  if L > t.level then .error .impossibleLevel
  else
    match hE : t.entries[entryIndex t.level v]? with
    | none => .error .panicIndexOutOfBounds
    | some entry =>
      if L = t.level then
        if isValid entry.data then
          if isPointer entry.data then .error .mappingIsActivePointer
          else .error .addressAlreadyInUse
        else
          .ok (.mk t.level (t.entries.set (entryIndex t.level v)
            (.raw (setToDirectMapping entry.data p perms))))
      else
        if isValid entry.data then
          if isPointer entry.data then
            match hE2 : entry with
            | .ptr d sub =>
              match setMap sub v p L perms with
              | .error e => .error e
              | .ok sub2 => .ok (.mk t.level (t.entries.set (entryIndex t.level v)
                  (.ptr d sub2)))
            | .raw _ => .error .danglingPointer
          else .error .addressAlreadyInUse
        else
          match setMapFresh (t.level - 1) v p L perms with
          | .error e => .error e
          | .ok sub => .ok (.mk t.level (t.entries.set (entryIndex t.level v)
              (.ptr (setToPointerData entry.data) sub)))
termination_by sizeOf t
decreasing_by
  have h1 := List.sizeOf_lt_of_mem (List.getElem?_mem hE)
  cases t with
  | mk l es =>
    simp only [PTable.entries] at h1
    simp_all
    omega

/-- The leaf physical-address assembly of `map` (mmu.rs 1327-1339): the
page offset, one 9-bit slice of the virtual address per level below the
table (superpages), and the entry's physical page number pieces from
the table level up. -/
def leafPA (lvl d v : Nat) : Nat :=
  let base := v &&& 0xFFF
  let mid := (List.range lvl).foldl
    (fun acc ll => acc ||| (v &&& (0x1FF <<< (12 + 9 * ll)))) base
  (List.range' lvl (3 - lvl)).foldl
    (fun acc l2 => acc ||| ((getPPNLevel d l2).getD 0 <<< (12 + 9 * l2))) mid

/-- `Sv39PageTable::map` (mmu.rs 1291-1340): check the upper bits, read
the entry at this level's index, fail on an invalid entry, recurse
through pointers (level-zero pointers are an error), and otherwise
assemble the physical address. -/
def translate (t : PTable) (v : Nat) : Except TranslateError Nat :=
  if upperBitsOk v then
    match hE : t.entries[entryIndex t.level v]? with
    | none => .error .panicIndexOutOfBounds
    | some entry =>
      if isValid entry.data then
        if isPointer entry.data then
          if t.level = 0 then .error .levelZeroPointer
          else
            match hE2 : entry with
            | .ptr _ sub => translate sub v
            | .raw _ => .error .danglingPointer
        else .ok (leafPA t.level entry.data v)
      else .error .invalidEntry
  else .error .upperBitsMalformed
termination_by sizeOf t
decreasing_by
  have h1 := List.sizeOf_lt_of_mem (List.getElem?_mem hE)
  cases t with
  | mk l es =>
    simp only [PTable.entries] at h1
    simp_all
    omega

set_option maxRecDepth 8000

/-- Reduction of `set_map` at the target level on an invalid raw
entry: the direct mapping is installed. -/
theorem setMap_leaf (t : PTable) (v p : Nat) (perms : PagePermissions) (d : Nat)
    (hE : t.entries[entryIndex t.level v]? = some (.raw d))
    (hinv : isValid d = false) :
    setMap t v p t.level perms =
      .ok (.mk t.level (t.entries.set (entryIndex t.level v)
        (.raw (setToDirectMapping d p perms)))) := by
  unfold setMap
  rw [if_neg (show ¬t.level > t.level from by omega)]
  split
  · rename_i heq
    rw [hE] at heq
    cases heq
  · rename_i entry heq
    rw [hE] at heq
    injection heq with h
    subst h
    rw [if_pos rfl, if_neg (by simp [PTEntry.data, hinv])]
    rfl

/-- Reduction of `set_map` above the target level on an invalid raw
entry: a fresh subtable chain is built and pointed to. -/
theorem setMap_invalid_above (t : PTable) (v p L : Nat) (perms : PagePermissions) (d : Nat)
    (hE : t.entries[entryIndex t.level v]? = some (.raw d))
    (hinv : isValid d = false) (hlt : L < t.level) :
    setMap t v p L perms =
      match setMapFresh (t.level - 1) v p L perms with
      | .error e => .error e
      | .ok sub => .ok (.mk t.level (t.entries.set (entryIndex t.level v)
          (.ptr (setToPointerData d) sub))) := by
  unfold setMap
  rw [if_neg (show ¬L > t.level from by omega)]
  split
  · rename_i heq
    rw [hE] at heq
    cases heq
  · rename_i entry heq
    rw [hE] at heq
    injection heq with h
    subst h
    rw [if_neg (show ¬L = t.level from by omega), if_neg (by simp [PTEntry.data, hinv])]
    rfl

/-- Reduction of `set_map` above the target level on a valid pointer
entry: descend into the structural subtable. -/
theorem setMap_ptr (t : PTable) (v p L : Nat) (perms : PagePermissions) (d : Nat)
    (sub : PTable)
    (hE : t.entries[entryIndex t.level v]? = some (.ptr d sub))
    (hval : isValid d = true) (hptr : isPointer d = true) (hlt : L < t.level) :
    setMap t v p L perms =
      match setMap sub v p L perms with
      | .error e => .error e
      | .ok sub2 => .ok (.mk t.level (t.entries.set (entryIndex t.level v)
          (.ptr d sub2))) := by
  conv_lhs => unfold setMap
  rw [if_neg (show ¬L > t.level from by omega)]
  split
  · rename_i heq
    rw [hE] at heq
    cases heq
  · rename_i entry heq
    rw [hE] at heq
    injection heq with h
    subst h
    rw [if_neg (show ¬L = t.level from by omega),
      if_pos (show isValid (PTEntry.ptr d sub).data = true from hval),
      if_pos (show isPointer (PTEntry.ptr d sub).data = true from hptr)]

/-- Reduction of `map` on a valid non-pointer entry: the physical
address is assembled. -/
theorem translate_leaf (t : PTable) (v : Nat) (e : PTEntry)
    (hup : upperBitsOk v = true)
    (hE : t.entries[entryIndex t.level v]? = some e)
    (hval : isValid e.data = true) (hptr : isPointer e.data = false) :
    translate t v = .ok (leafPA t.level e.data v) := by
  unfold translate
  rw [if_pos hup]
  split
  · rename_i heq
    rw [hE] at heq
    cases heq
  · rename_i entry heq
    rw [hE] at heq
    injection heq with h
    subst h
    rw [if_pos hval, if_neg (by simp [hptr])]

/-- Reduction of `map` on a valid pointer entry above level 0: recurse
into the structural subtable. -/
theorem translate_ptr (t : PTable) (v : Nat) (d : Nat) (sub : PTable)
    (hup : upperBitsOk v = true)
    (hE : t.entries[entryIndex t.level v]? = some (.ptr d sub))
    (hval : isValid d = true) (hptr : isPointer d = true) (hlvl : t.level ≠ 0) :
    translate t v = translate sub v := by
  conv_lhs => unfold translate
  rw [if_pos hup]
  split
  · rename_i heq
    rw [hE] at heq
    cases heq
  · rename_i entry heq
    rw [hE] at heq
    injection heq with h
    subst h
    rw [if_pos (show isValid (PTEntry.ptr d sub).data = true from hval),
      if_pos (show isPointer (PTEntry.ptr d sub).data = true from hptr),
      if_neg hlvl]

/-- C2 (counterexample core): on a zeroed level-0 table, `set_map(v=0,
p=1, L=0, ReadOnly)` succeeds — the code never checks that `p` is
aligned to the mapping grain — and installs entry data `3` (valid +
readable, physical page number zero: `p`'s low twelve bits are
dropped by `>> 12`).  The subsequent `map(0)` hence returns `0`, not
the `p | (v' & 0xFFF) = 1` the claim computes. -/
theorem page_table_round_trip_counterexample :
    setMap (.mk 0 (List.replicate 512 (.raw 0))) 0 1 0 .readOnly =
      .ok (.mk 0 ((List.replicate 512 (PTEntry.raw 0)).set 0 (.raw 3))) ∧
    translate (.mk 0 ((List.replicate 512 (PTEntry.raw 0)).set 0 (.raw 3))) 0 = .ok 0 ∧
    (1 : Nat) ||| (0 &&& (1 <<< 12 - 1)) = 1 := by
  refine ⟨?_, ?_, by decide⟩
  · have hE : (PTable.mk 0 (List.replicate 512 (PTEntry.raw 0))).entries[
        entryIndex (PTable.mk 0 (List.replicate 512 (PTEntry.raw 0))).level 0]? =
        some (PTEntry.raw 0) := by
      rw [show entryIndex (PTable.mk 0 (List.replicate 512 (PTEntry.raw 0))).level 0 = 0
          from by decide]
      simp [PTable.entries, List.getElem?_replicate]
    have h1 := setMap_leaf (PTable.mk 0 (List.replicate 512 (PTEntry.raw 0))) 0 1
      .readOnly 0 hE (by decide)
    rw [show setToDirectMapping 0 1 .readOnly = 3 from by decide] at h1
    exact h1
  · have hE : (PTable.mk 0 ((List.replicate 512 (PTEntry.raw 0)).set 0
        (PTEntry.raw 3))).entries[entryIndex (PTable.mk 0 ((List.replicate 512
        (PTEntry.raw 0)).set 0 (PTEntry.raw 3))).level 0]? =
        some (PTEntry.raw 3) := by
      rw [show entryIndex (PTable.mk 0 ((List.replicate 512 (PTEntry.raw 0)).set 0
          (PTEntry.raw 3))).level 0 = 0 from by decide]
      simp only [PTable.entries]
      rw [List.getElem?_set_self (by simp)]
    have h1 := translate_leaf (PTable.mk 0 ((List.replicate 512 (PTEntry.raw 0)).set 0
      (PTEntry.raw 3))) 0 (.raw 3) (by decide) hE (by decide) (by decide)
    rw [show leafPA (PTable.mk 0 ((List.replicate 512 (PTEntry.raw 0)).set 0
        (PTEntry.raw 3))).level (PTEntry.raw 3).data 0 = 0 from by decide] at h1
    exact h1

/-- `is_valid` reads bit 0. -/
theorem isValid_eq_testBit (d : Nat) : isValid d = d.testBit 0 := by
  rw [isValid, Nat.testBit_to_div_mod, decide_eq_decide, Nat.shiftRight_zero,
    Nat.and_one_is_mod, Nat.pow_zero, Nat.div_one]
  omega

/-- `is_readable` reads bit 1. -/
theorem isReadable_eq_testBit (d : Nat) : isReadable d = d.testBit 1 := by
  rw [isReadable, Nat.testBit_to_div_mod, decide_eq_decide, Nat.and_one_is_mod,
    Nat.shiftRight_eq_div_pow]
  omega

/-- `is_writable` reads bit 2. -/
theorem isWritable_eq_testBit (d : Nat) : isWritable d = d.testBit 2 := by
  rw [isWritable, Nat.testBit_to_div_mod, decide_eq_decide, Nat.and_one_is_mod,
    Nat.shiftRight_eq_div_pow]
  omega

/-- `is_executable` reads bit 3. -/
theorem isExecutable_eq_testBit (d : Nat) : isExecutable d = d.testBit 3 := by
  rw [isExecutable, Nat.testBit_to_div_mod, decide_eq_decide, Nat.and_one_is_mod,
    Nat.shiftRight_eq_div_pow]
  omega

/-- The bugged bit setter leaves every bit other than `s` (below 64)
unchanged, for both values of `b`. -/
theorem setBitBugged_testBit_other (d s : Nat) (b : Bool) (i : Nat)
    (hsi : s ≠ i) (hi : i < 64) :
    (setBitBugged d s b).testBit i = d.testBit i := by
  cases b with
  | false =>
    simp only [setBitBugged, Bool.false_eq_true, if_false, Nat.zero_shiftLeft,
      Nat.xor_zero, Nat.or_zero, Nat.testBit_and]
    rw [show USIZE_MAX = 2 ^ 64 - 1 from rfl, Nat.testBit_two_pow_sub_one]
    simp [hi]
  | true =>
    simp only [setBitBugged, if_true, Nat.shiftLeft_eq, Nat.one_mul,
      Nat.testBit_or, Nat.testBit_and, Nat.testBit_xor]
    rw [show USIZE_MAX = 2 ^ 64 - 1 from rfl, Nat.testBit_two_pow_sub_one,
      Nat.testBit_two_pow_of_ne hsi]
    simp [hi]

/-- The bugged bit setter does set bit `s` when asked to set it. -/
theorem setBitBugged_testBit_self_true (d s : Nat) :
    (setBitBugged d s true).testBit s = true := by
  simp only [setBitBugged, if_true, Nat.shiftLeft_eq, Nat.one_mul, Nat.testBit_or,
    Nat.testBit_two_pow_self]
  simp

/-- Bits 10-53 of an installed direct mapping hold exactly the stored
physical page number `(p & PPN_MASK) >> 12`, independent of the stale
entry data and of the permissions. -/
theorem setToDirectMapping_testBit_mid (d p : Nat) (perms : PagePermissions) (i : Nat)
    (h1 : 10 ≤ i) (h2 : i < 54) :
    (setToDirectMapping d p perms).testBit i = ((p &&& PPN_MASK) >>> 12).testBit (i - 10) := by
  simp only [setToDirectMapping]
  rw [setBitBugged_testBit_other _ 0 true i (by omega) (by omega),
    setBitBugged_testBit_other _ 3 _ i (by omega) (by omega),
    setBitBugged_testBit_other _ 2 _ i (by omega) (by omega),
    setBitBugged_testBit_other _ 1 _ i (by omega) (by omega)]
  have hmask : (USIZE_MAX ^^^ (PPN_MASK <<< 10)).testBit i = false := by
    rw [Nat.testBit_xor, show USIZE_MAX = 2 ^ 64 - 1 from rfl,
      Nat.testBit_two_pow_sub_one, Nat.testBit_shiftLeft,
      show PPN_MASK = 2 ^ 44 - 1 from rfl, Nat.testBit_two_pow_sub_one]
    have hx1 : decide (i < 64) = true := by simp; omega
    have hx2 : decide (10 ≤ i) = true := by simp [h1]
    have hx3 : decide (i - 10 < 44) = true := by simp; omega
    rw [hx1, hx2, hx3]
    rfl
  rw [Nat.testBit_xor, Nat.testBit_and, hmask, Nat.testBit_shiftLeft]
  have hx2 : decide (10 ≤ i) = true := by simp [h1]
  rw [hx2]
  simp

/-- The bugged bit setter with `b = false` changes no bit below 64. -/
theorem setBitBugged_testBit_false (d s i : Nat) (hi : i < 64) :
    (setBitBugged d s false).testBit i = d.testBit i := by
  simp only [setBitBugged, Bool.false_eq_true, if_false, Nat.zero_shiftLeft,
    Nat.xor_zero, Nat.or_zero, Nat.testBit_and]
  rw [show USIZE_MAX = 2 ^ 64 - 1 from rfl, Nat.testBit_two_pow_sub_one]
  simp [hi]

/-- Selecting a shifted `w`-bit field is taking `w` bits of the
shifted value. -/
theorem and_mask_shifted (v w s : Nat) :
    v &&& ((2 ^ w - 1) <<< s) = (v >>> s % 2 ^ w) <<< s := by
  apply Nat.eq_of_testBit_eq
  intro j
  rw [Nat.testBit_and, Nat.testBit_shiftLeft, Nat.testBit_shiftLeft,
    Nat.testBit_two_pow_sub_one, Nat.testBit_mod_two_pow, Nat.testBit_shiftRight]
  by_cases hsj : s ≤ j
  · have hx : decide (s ≤ j) = true := by simp [hsj]
    rw [hx, show s + (j - s) = j from by omega]
    cases hv : v.testBit j <;> cases hw : decide (j - s < w) <;> simp_all
  · have hx : decide (s ≤ j) = false := by simp; omega
    rw [hx]
    simp

/-- Extracting a shifted field of an installed mapping: bits
`[s, s+w)` of the entry hold bits `[s+2, s+2+w)` of `p`. -/
theorem ppn_extract_general (d p : Nat) (perms : PagePermissions) (hp : p < 2 ^ 44)
    (s w : Nat) (hs : 10 ≤ s) (hsw : s + w ≤ 54) :
    (setToDirectMapping d p perms &&& ((2 ^ w - 1) <<< s)) >>> s =
      p / 2 ^ (s + 2) % 2 ^ w := by
  rw [and_mask_shifted, Nat.shiftLeft_eq, Nat.shiftRight_eq_div_pow,
    Nat.mul_div_cancel _ (by positivity)]
  apply Nat.eq_of_testBit_eq
  intro j
  rw [Nat.testBit_mod_two_pow, Nat.testBit_mod_two_pow, Nat.testBit_shiftRight,
    show p / 2 ^ (s + 2) = p >>> (s + 2) from (Nat.shiftRight_eq_div_pow _ _).symm,
    Nat.testBit_shiftRight]
  by_cases hj : j < w
  · have h1 : decide (j < w) = true := by simp [hj]
    rw [h1]
    have h2 := setToDirectMapping_testBit_mid d p perms (s + j) (by omega) (by omega)
    rw [show s + j - 10 = s - 10 + j from by omega,
      show PPN_MASK = 2 ^ 44 - 1 from rfl, Nat.and_pow_two_sub_one_eq_mod,
      Nat.mod_eq_of_lt hp, Nat.testBit_shiftRight,
      show 12 + (s - 10 + j) = s + 2 + j from by omega] at h2
    rw [h2]
  · have h1 : decide (j < w) = false := by simp; omega
    rw [h1]
    simp

/-- An installed direct mapping is valid. -/
theorem isValid_setToDirectMapping (d p : Nat) (perms : PagePermissions) :
    isValid (setToDirectMapping d p perms) = true := by
  rw [isValid_eq_testBit]
  simp only [setToDirectMapping]
  exact setBitBugged_testBit_self_true _ 0

/-- Read permission sticks. -/
theorem setToDirectMapping_readable (d p : Nat) (perms : PagePermissions)
    (h : perms.readAllowed = true) :
    isReadable (setToDirectMapping d p perms) = true := by
  rw [isReadable_eq_testBit]
  simp only [setToDirectMapping, h]
  rw [setBitBugged_testBit_other _ 0 true 1 (by omega) (by omega),
    setBitBugged_testBit_other _ 3 _ 1 (by omega) (by omega),
    setBitBugged_testBit_other _ 2 _ 1 (by omega) (by omega)]
  exact setBitBugged_testBit_self_true _ 1

/-- Write permission sticks. -/
theorem setToDirectMapping_writable (d p : Nat) (perms : PagePermissions)
    (h : perms.writeAllowed = true) :
    isWritable (setToDirectMapping d p perms) = true := by
  rw [isWritable_eq_testBit]
  simp only [setToDirectMapping, h]
  rw [setBitBugged_testBit_other _ 0 true 2 (by omega) (by omega),
    setBitBugged_testBit_other _ 3 _ 2 (by omega) (by omega)]
  exact setBitBugged_testBit_self_true _ 2

/-- Execute permission sticks. -/
theorem setToDirectMapping_executable (d p : Nat) (perms : PagePermissions)
    (h : perms.executeAllowed = true) :
    isExecutable (setToDirectMapping d p perms) = true := by
  rw [isExecutable_eq_testBit]
  simp only [setToDirectMapping, h]
  rw [setBitBugged_testBit_other _ 0 true 3 (by omega) (by omega)]
  exact setBitBugged_testBit_self_true _ 3

/-- An installed direct mapping is never a pointer: every
`PagePermissions` variant grants at least one of read, write or
execute. -/
theorem isPointer_setToDirectMapping (d p : Nat) (perms : PagePermissions) :
    isPointer (setToDirectMapping d p perms) = false := by
  have h : perms.readAllowed = true ∨ perms.writeAllowed = true ∨
      perms.executeAllowed = true := by
    cases perms <;> decide
  rw [isPointer]
  rcases h with h | h | h
  · rw [setToDirectMapping_readable d p perms h]
    simp
  · rw [setToDirectMapping_writable d p perms h]
    simp
  · rw [setToDirectMapping_executable d p perms h]
    simp

/-- A pointer entry built on clean data is valid. -/
theorem isValid_setToPointerData (d : Nat) :
    isValid (setToPointerData d) = true := by
  rw [isValid_eq_testBit]
  simp only [setToPointerData]
  exact setBitBugged_testBit_self_true _ 0

/-- `set_to_pointer` preserves bits 1-9 of the stale data: its
permission-clearing writes are no-ops. -/
theorem setToPointerData_testBit_low (d i : Nat) (h1 : 1 ≤ i) (h2 : i < 10) :
    (setToPointerData d).testBit i = d.testBit i := by
  simp only [setToPointerData]
  rw [setBitBugged_testBit_other _ 0 true i (by omega) (by omega),
    setBitBugged_testBit_false _ 3 i (by omega),
    setBitBugged_testBit_false _ 2 i (by omega),
    setBitBugged_testBit_false _ 1 i (by omega),
    Nat.testBit_and, Nat.testBit_xor,
    show USIZE_MAX = 2 ^ 64 - 1 from rfl, Nat.testBit_two_pow_sub_one,
    Nat.testBit_shiftLeft, show PPN_MASK = 2 ^ 44 - 1 from rfl,
    Nat.testBit_two_pow_sub_one, setBitBugged_testBit_false _ 0 i (by omega)]
  have hx1 : decide (i < 64) = true := by simp; omega
  have hx2 : decide (10 ≤ i) = false := by simp; omega
  rw [hx1, hx2]
  simp

/-- A pointer entry built on data whose permission bits are clear is
recognised as a pointer. -/
theorem isPointer_setToPointerData (d : Nat)
    (h1 : isReadable d = false) (h2 : isWritable d = false)
    (h3 : isExecutable d = false) :
    isPointer (setToPointerData d) = true := by
  rw [isReadable_eq_testBit] at h1
  rw [isWritable_eq_testBit] at h2
  rw [isExecutable_eq_testBit] at h3
  rw [isPointer, isReadable_eq_testBit, isWritable_eq_testBit, isExecutable_eq_testBit,
    setToPointerData_testBit_low d 1 (by omega) (by omega),
    setToPointerData_testBit_low d 2 (by omega) (by omega),
    setToPointerData_testBit_low d 3 (by omega) (by omega),
    h1, h2, h3]
  rfl

/-- The assembled physical address of an installed leaf mapping. -/
theorem leafPA_install (clvl d p v' : Nat) (perms : PagePermissions)
    (h2 : clvl ≤ 2) (hp44 : p < 2 ^ 44) (hpal : p % 2 ^ (12 + 9 * clvl) = 0) :
    leafPA clvl (setToDirectMapping d p perms) v' =
      p ||| (v' &&& (1 <<< (12 + 9 * clvl) - 1)) := by
  have e0 := ppn_extract_general d p perms hp44 10 9 (by omega) (by omega)
  have e1 := ppn_extract_general d p perms hp44 19 9 (by omega) (by omega)
  have e2 := ppn_extract_general d p perms hp44 28 26 (by omega) (by omega)
  have hRHS : p ||| (v' &&& (1 <<< (12 + 9 * clvl) - 1)) =
      p + v' % 2 ^ (12 + 9 * clvl) := by
    rw [Nat.shiftLeft_eq, Nat.one_mul, Nat.and_pow_two_sub_one_eq_mod]
    exact or_eq_add_of_disjoint hpal (Nat.mod_lt _ (by positivity))
  rw [hRHS]
  interval_cases clvl
  · simp only [leafPA, show List.range 0 = ([] : List Nat) from rfl,
      show (3 : Nat) - 0 = 3 from rfl, show List.range' 0 3 = [0, 1, 2] from rfl,
      List.foldl_nil, List.foldl_cons, getPPNLevel, Option.getD_some]
    rw [show (4095 : Nat) = 2 ^ 12 - 1 from by norm_num,
      show (511 : Nat) = 2 ^ 9 - 1 from by norm_num,
      show (67108863 : Nat) = 2 ^ 26 - 1 from by norm_num,
      Nat.and_pow_two_sub_one_eq_mod, e0, e1, e2,
      show ((10 : Nat) + 2) = 12 from rfl, show ((19 : Nat) + 2) = 21 from rfl,
      show ((28 : Nat) + 2) = 30 from rfl,
      Nat.shiftLeft_eq, Nat.shiftLeft_eq, Nat.shiftLeft_eq]
    have hpal0 : p % 2 ^ 12 = 0 := by simpa using hpal
    rw [Nat.lor_comm (v' % 2 ^ 12),
      or_eq_add_of_disjoint (Nat.mul_mod_left _ _) (Nat.mod_lt _ (by positivity))]
    rw [Nat.lor_comm _ (p / 2 ^ 21 % 2 ^ 9 * 2 ^ 21),
      or_eq_add_of_disjoint (Nat.mul_mod_left _ _)
        (by
          have hb : v' % 2 ^ 12 < 2 ^ 12 := Nat.mod_lt _ (by positivity)
          have h0 : p / 2 ^ 12 % 2 ^ 9 < 2 ^ 9 := Nat.mod_lt _ (by positivity)
          omega)]
    rw [Nat.lor_comm _ (p / 2 ^ 30 % 2 ^ 26 * 2 ^ 30),
      or_eq_add_of_disjoint (Nat.mul_mod_left _ _)
        (by
          have hb : v' % 2 ^ 12 < 2 ^ 12 := Nat.mod_lt _ (by positivity)
          have h0 : p / 2 ^ 12 % 2 ^ 9 < 2 ^ 9 := Nat.mod_lt _ (by positivity)
          have h1 : p / 2 ^ 21 % 2 ^ 9 < 2 ^ 9 := Nat.mod_lt _ (by positivity)
          omega)]
    have b1 : p / 2 ^ 21 = p / 2 ^ 12 / 2 ^ 9 := by
      rw [Nat.div_div_eq_div_mul, ← Nat.pow_add]
    have b2 : p / 2 ^ 30 = p / 2 ^ 21 / 2 ^ 9 := by
      rw [Nat.div_div_eq_div_mul, ← Nat.pow_add]
    omega
  · simp only [leafPA, show List.range 1 = [0] from rfl,
      show (3 : Nat) - 1 = 2 from rfl, show List.range' 1 2 = [1, 2] from rfl,
      List.foldl_nil, List.foldl_cons, getPPNLevel, Option.getD_some]
    rw [show (4095 : Nat) = 2 ^ 12 - 1 from by norm_num,
      show (511 : Nat) = 2 ^ 9 - 1 from by norm_num,
      show (67108863 : Nat) = 2 ^ 26 - 1 from by norm_num,
      Nat.and_pow_two_sub_one_eq_mod, e1, e2, and_mask_shifted,
      show ((19 : Nat) + 2) = 21 from rfl, show ((28 : Nat) + 2) = 30 from rfl,
      Nat.shiftRight_eq_div_pow,
      Nat.shiftLeft_eq, Nat.shiftLeft_eq, Nat.shiftLeft_eq]
    have hpal1 : p % 2 ^ 21 = 0 := by simpa using hpal
    rw [Nat.lor_comm (v' % 2 ^ 12),
      or_eq_add_of_disjoint (Nat.mul_mod_left _ _) (Nat.mod_lt _ (by positivity))]
    rw [Nat.lor_comm _ (p / 2 ^ 21 % 2 ^ 9 * 2 ^ 21),
      or_eq_add_of_disjoint (Nat.mul_mod_left _ _)
        (by
          have hb : v' % 2 ^ 12 < 2 ^ 12 := Nat.mod_lt _ (by positivity)
          have h0 : v' / 2 ^ 12 % 2 ^ 9 < 2 ^ 9 := Nat.mod_lt _ (by positivity)
          omega)]
    rw [Nat.lor_comm _ (p / 2 ^ 30 % 2 ^ 26 * 2 ^ 30),
      or_eq_add_of_disjoint (Nat.mul_mod_left _ _)
        (by
          have hb : v' % 2 ^ 12 < 2 ^ 12 := Nat.mod_lt _ (by positivity)
          have h0 : v' / 2 ^ 12 % 2 ^ 9 < 2 ^ 9 := Nat.mod_lt _ (by positivity)
          have h1 : p / 2 ^ 21 % 2 ^ 9 < 2 ^ 9 := Nat.mod_lt _ (by positivity)
          omega)]
    have b1 : v' / 2 ^ 21 = v' / 2 ^ 12 / 2 ^ 9 := by
      rw [Nat.div_div_eq_div_mul, ← Nat.pow_add]
    have b2 : p / 2 ^ 30 = p / 2 ^ 21 / 2 ^ 9 := by
      rw [Nat.div_div_eq_div_mul, ← Nat.pow_add]
    omega
  · simp only [leafPA, show List.range 2 = [0, 1] from rfl,
      show (3 : Nat) - 2 = 1 from rfl, show List.range' 2 1 = [2] from rfl,
      List.foldl_nil, List.foldl_cons, getPPNLevel, Option.getD_some]
    rw [show (4095 : Nat) = 2 ^ 12 - 1 from by norm_num,
      show (511 : Nat) = 2 ^ 9 - 1 from by norm_num,
      show (67108863 : Nat) = 2 ^ 26 - 1 from by norm_num,
      Nat.and_pow_two_sub_one_eq_mod, e2, and_mask_shifted, and_mask_shifted,
      show ((28 : Nat) + 2) = 30 from rfl, Nat.shiftRight_eq_div_pow,
      Nat.shiftRight_eq_div_pow, Nat.shiftLeft_eq, Nat.shiftLeft_eq, Nat.shiftLeft_eq]
    have hpal2 : p % 2 ^ 30 = 0 := by simpa using hpal
    rw [Nat.lor_comm (v' % 2 ^ 12),
      or_eq_add_of_disjoint (Nat.mul_mod_left _ _) (Nat.mod_lt _ (by positivity))]
    rw [Nat.lor_comm _ (v' / 2 ^ 21 % 2 ^ 9 * 2 ^ 21),
      or_eq_add_of_disjoint (Nat.mul_mod_left _ _)
        (by
          have hb : v' % 2 ^ 12 < 2 ^ 12 := Nat.mod_lt _ (by positivity)
          have h0 : v' / 2 ^ 12 % 2 ^ 9 < 2 ^ 9 := Nat.mod_lt _ (by positivity)
          omega)]
    rw [Nat.lor_comm _ (p / 2 ^ 30 % 2 ^ 26 * 2 ^ 30),
      or_eq_add_of_disjoint (Nat.mul_mod_left _ _)
        (by
          have hb : v' % 2 ^ 12 < 2 ^ 12 := Nat.mod_lt _ (by positivity)
          have h0 : v' / 2 ^ 12 % 2 ^ 9 < 2 ^ 9 := Nat.mod_lt _ (by positivity)
          have h1 : v' / 2 ^ 21 % 2 ^ 9 < 2 ^ 9 := Nat.mod_lt _ (by positivity)
          omega)]
    have b1 : v' / 2 ^ 21 = v' / 2 ^ 12 / 2 ^ 9 := by
      rw [Nat.div_div_eq_div_mul, ← Nat.pow_add]
    have b2 : v' / 2 ^ 30 = v' / 2 ^ 21 / 2 ^ 9 := by
      rw [Nat.div_div_eq_div_mul, ← Nat.pow_add]
    omega

/-- Two virtual addresses agreeing on bits `≥ M` select the same entry
at any level whose index field lies at or above `M`. -/
theorem entryIndex_agree (clvl : Nat) {v v' M : Nat}
    (h : v' / 2 ^ M = v / 2 ^ M) (hle : M ≤ 12 + 9 * clvl) :
    entryIndex clvl v' = entryIndex clvl v := by
  have hsplit : ∀ u : Nat, u / 2 ^ (12 + 9 * clvl) =
      u / 2 ^ M / 2 ^ (12 + 9 * clvl - M) := by
    intro u
    rw [Nat.div_div_eq_div_mul, ← Nat.pow_add,
      show M + (12 + 9 * clvl - M) = 12 + 9 * clvl from by omega]
  unfold entryIndex
  rw [and_shl_shr, and_shl_shr, Nat.shiftRight_eq_div_pow, Nat.shiftRight_eq_div_pow,
    hsplit v, hsplit v', h]

/-- The entry index always fits the 9-bit field. -/
theorem entryIndex_lt (clvl v : Nat) : entryIndex clvl v < 512 := by
  have h : entryIndex clvl v ≤ 0x1FF := by
    unfold entryIndex
    rw [and_shl_shr]
    exact Nat.and_le_right
  omega

/-- Translating through a table whose selected entry just received a
direct mapping produces the claimed composite address. -/
theorem translate_install (clvl : Nat) (es : List PTEntry) (v v' p : Nat)
    (perms : PagePermissions) (d : Nat) (M : Nat)
    (h2 : clvl ≤ 2) (hlen : es.length = 512) (hup : upperBitsOk v' = true)
    (hM : M ≤ 12 + 9 * clvl)
    (hagree : v' / 2 ^ M = v / 2 ^ M)
    (hp44 : p < 2 ^ 44) (hpal : p % 2 ^ (12 + 9 * clvl) = 0) :
    translate (.mk clvl (es.set (entryIndex clvl v)
        (.raw (setToDirectMapping d p perms)))) v' =
      .ok (p ||| (v' &&& (1 <<< (12 + 9 * clvl) - 1))) := by
  have hidx : entryIndex clvl v' = entryIndex clvl v := entryIndex_agree clvl hagree hM
  have hE : (es.set (entryIndex clvl v)
      (.raw (setToDirectMapping d p perms)))[entryIndex clvl v']? =
      some (.raw (setToDirectMapping d p perms)) := by
    rw [hidx, List.getElem?_set_self (by rw [hlen]; exact entryIndex_lt clvl v)]
  have h1 := translate_leaf (.mk clvl (es.set (entryIndex clvl v)
      (.raw (setToDirectMapping d p perms)))) v'
    (.raw (setToDirectMapping d p perms)) hup hE
    (by simp [PTEntry.data, isValid_setToDirectMapping])
    (by simp [PTEntry.data, isPointer_setToDirectMapping])
  rw [h1]
  simp only [PTable.level, PTEntry.data]
  rw [leafPA_install clvl d p v' perms h2 hp44 hpal]

/-- Every entry of a fresh subtable is an invalid raw entry with clear
permission bits (entry 0 carries the level in the reserved bits). -/
theorem newSubtableEntries_flags (lvl i : Nat) (hi : i < 512) :
    ∃ d, (newSubtableEntries lvl)[i]? = some (.raw d) ∧ isValid d = false ∧
      isReadable d = false ∧ isWritable d = false ∧ isExecutable d = false := by
  by_cases h0 : i = 0
  · subst h0
    refine ⟨lvl <<< 8, ?_, ?_, ?_, ?_, ?_⟩
    · unfold newSubtableEntries
      rw [List.getElem?_set_self (by simp)]
    · rw [isValid_eq_testBit, Nat.testBit_shiftLeft]
      simp
    · rw [isReadable_eq_testBit, Nat.testBit_shiftLeft]
      simp
    · rw [isWritable_eq_testBit, Nat.testBit_shiftLeft]
      simp
    · rw [isExecutable_eq_testBit, Nat.testBit_shiftLeft]
      simp
  · refine ⟨0, ?_, by decide, by decide, by decide, by decide⟩
    unfold newSubtableEntries
    rw [List.getElem?_set_ne (by omega), List.getElem?_replicate, if_pos hi]

/-- The traversal precondition of the round-trip claim: at every table
along `v`'s path the selected entry is either a previously-invalid raw
entry (at the mapping level, or — with clear permission bits — above
it, where the fresh subtable chain is built) or a valid structural
pointer to the next table. -/
inductive MapPath : PTable → Nat → Nat → Prop where
  | leaf (clvl : Nat) (es : List PTEntry) (v L d : Nat) :
      clvl = L → clvl ≤ 2 → es.length = 512 →
      es[entryIndex clvl v]? = some (.raw d) →
      isValid d = false →
      MapPath (.mk clvl es) v L
  | fresh (clvl : Nat) (es : List PTEntry) (v L d : Nat) :
      L < clvl → clvl ≤ 2 → es.length = 512 →
      es[entryIndex clvl v]? = some (.raw d) →
      isValid d = false → isReadable d = false → isWritable d = false →
      isExecutable d = false →
      MapPath (.mk clvl es) v L
  | descend (clvl : Nat) (es : List PTEntry) (v L d : Nat) (sub : PTable) :
      L < clvl → clvl ≤ 2 → es.length = 512 →
      es[entryIndex clvl v]? = some (.ptr d sub) →
      isValid d = true → isPointer d = true →
      MapPath sub v L →
      MapPath (.mk clvl es) v L

/-- The fresh subtable chain built by `set_map` below an invalid entry
always succeeds, and the resulting chain translates `v'` to the
composite address. -/
theorem setMapFresh_translate (c : Nat) :
    ∀ v p L v' : Nat, ∀ perms : PagePermissions, L ≤ c → c ≤ 2 →
      upperBitsOk v' = true →
      v' / 2 ^ (12 + 9 * L) = v / 2 ^ (12 + 9 * L) →
      p < 2 ^ 44 → p % 2 ^ (12 + 9 * L) = 0 →
      ∃ sub, setMapFresh c v p L perms = .ok sub ∧
        translate sub v' = .ok (p ||| (v' &&& (1 <<< (12 + 9 * L) - 1))) := by
  induction c with
  | zero =>
    intro v p L v' perms hLc hc2 hup hagree hp44 hpal
    have hL0 : L = 0 := by omega
    subst hL0
    have hrun : setMapFresh 0 v p 0 perms =
        .ok (.mk 0 ((newSubtableEntries 0).set (entryIndex 0 v)
          (.raw (setToDirectMapping
            (((newSubtableEntries 0)[entryIndex 0 v]?).getD (.raw 0)).data p perms)))) := by
      unfold setMapFresh
      rw [if_neg (by omega), if_pos rfl]
    exact ⟨_, hrun, translate_install 0 (newSubtableEntries 0) v v' p perms _ (12 + 9 * 0)
      (by omega) (by simp [newSubtableEntries]) hup (by omega) hagree hp44 hpal⟩
  | succ c1 ih =>
    intro v p L v' perms hLc hc2 hup hagree hp44 hpal
    by_cases hLeq : L = c1 + 1
    · subst hLeq
      have hrun : setMapFresh (c1 + 1) v p (c1 + 1) perms =
          .ok (.mk (c1 + 1) ((newSubtableEntries (c1 + 1)).set (entryIndex (c1 + 1) v)
            (.raw (setToDirectMapping
              (((newSubtableEntries (c1 + 1))[entryIndex (c1 + 1) v]?).getD
                (.raw 0)).data p perms)))) := by
        unfold setMapFresh
        rw [if_neg (by omega), if_pos rfl]
      exact ⟨_, hrun, translate_install (c1 + 1) (newSubtableEntries (c1 + 1)) v v' p
        perms _ (12 + 9 * (c1 + 1)) hc2 (by simp [newSubtableEntries]) hup (by omega)
        hagree hp44 hpal⟩
    · obtain ⟨sub, hsub, htr⟩ := ih v p L v' perms (by omega) (by omega) hup hagree
        hp44 hpal
      have hrun : setMapFresh (c1 + 1) v p L perms =
          .ok (.mk (c1 + 1) ((newSubtableEntries (c1 + 1)).set (entryIndex (c1 + 1) v)
            (.ptr (setToPointerData
              (((newSubtableEntries (c1 + 1))[entryIndex (c1 + 1) v]?).getD
                (.raw 0)).data) sub))) := by
        unfold setMapFresh
        rw [if_neg (by omega), if_neg hLeq]
        simp only []
        rw [hsub]
      refine ⟨_, hrun, ?_⟩
      · obtain ⟨d0, hd0, hdv, hdr, hdw, hdx⟩ :=
          newSubtableEntries_flags (c1 + 1) (entryIndex (c1 + 1) v)
            (entryIndex_lt (c1 + 1) v)
        have hidx : entryIndex (c1 + 1) v' = entryIndex (c1 + 1) v :=
          entryIndex_agree (c1 + 1) hagree (by omega)
        have hE1 : ((newSubtableEntries (c1 + 1)).set (entryIndex (c1 + 1) v)
            (.ptr (setToPointerData
              (((newSubtableEntries (c1 + 1))[entryIndex (c1 + 1) v]?).getD
                (.raw 0)).data) sub))[entryIndex (c1 + 1) v']? =
            some (.ptr (setToPointerData
              (((newSubtableEntries (c1 + 1))[entryIndex (c1 + 1) v]?).getD
                (.raw 0)).data) sub) := by
          rw [hidx, List.getElem?_set_self
            (by simp [newSubtableEntries, entryIndex_lt])]
        rw [hd0] at hE1 ⊢
        simp only [Option.getD_some, PTEntry.data] at hE1 ⊢
        have h1 := translate_ptr (.mk (c1 + 1)
            ((newSubtableEntries (c1 + 1)).set (entryIndex (c1 + 1) v)
              (.ptr (setToPointerData d0) sub))) v' (setToPointerData d0) sub hup hE1
          (isValid_setToPointerData d0)
          (isPointer_setToPointerData d0 hdr hdw hdx) (by simp [PTable.level])
        rw [h1]
        exact htr

/-- C2 (amended): after a successful `set_map(v, p, L, perms)` along a
well-formed path (`MapPath`: the traversed entries are previously
invalid — with clear stale permission bits where a pointer will be
written — or valid structural pointers), a `map(v')` with well-formed
upper bits agreeing with `v` on all bits `≥ 12+9L` returns
`p | (v' & ((1 << (12+9L)) - 1))`, **provided** `p < 2^44` (the code
masks the physical address with `0xFFF_FFFF_FFFF` before shifting) and
`p` is aligned to `2^(12+9L)` (the code drops `p`'s low bits into the
wrong page-number fields otherwise, as the counterexample shows). -/
theorem page_table_round_trip_amended (t : PTable) (v p L : Nat)
    (perms : PagePermissions) (t1 : PTable) (v' : Nat)
    (hpath : MapPath t v L)
    (hup : upperBitsOk v' = true)
    (hagree : v' / 2 ^ (12 + 9 * L) = v / 2 ^ (12 + 9 * L))
    (hp44 : p < 2 ^ 44)
    (hpal : p % 2 ^ (12 + 9 * L) = 0)
    (hrun : setMap t v p L perms = .ok t1) :
    translate t1 v' = .ok (p ||| (v' &&& (1 <<< (12 + 9 * L) - 1))) := by
  revert t1
  induction hpath with
  | leaf clvl es vx L d hclvl h2 hlen hE hinv =>
    intro t1 hrun
    subst hclvl
    have h1 : setMap (.mk clvl es) vx p clvl perms =
        .ok (.mk clvl (es.set (entryIndex clvl vx)
          (.raw (setToDirectMapping d p perms)))) :=
      setMap_leaf (.mk clvl es) vx p perms d hE hinv
    rw [h1] at hrun
    injection hrun with h3
    subst h3
    exact translate_install clvl es vx v' p perms d (12 + 9 * clvl) h2 hlen hup
      (by omega) hagree hp44 hpal
  | fresh clvl es vx L d hlt h2 hlen hE hinv hdr hdw hdx =>
    intro t1 hrun
    obtain ⟨sub, hsub, htr⟩ := setMapFresh_translate (clvl - 1) vx p L v' perms
      (by omega) (by omega) hup hagree hp44 hpal
    have h1 : setMap (.mk clvl es) vx p L perms =
        match setMapFresh (clvl - 1) vx p L perms with
        | .error e => .error e
        | .ok sub => .ok (.mk clvl (es.set (entryIndex clvl vx)
            (.ptr (setToPointerData d) sub))) :=
      setMap_invalid_above (.mk clvl es) vx p L perms d hE hinv hlt
    rw [h1, hsub] at hrun
    simp only [] at hrun
    injection hrun with h3
    subst h3
    have hidx : entryIndex clvl v' = entryIndex clvl vx :=
      entryIndex_agree clvl hagree (by omega)
    have hE1 : (es.set (entryIndex clvl vx)
        (.ptr (setToPointerData d) sub))[entryIndex clvl v']? =
        some (.ptr (setToPointerData d) sub) := by
      rw [hidx, List.getElem?_set_self (by rw [hlen]; exact entryIndex_lt clvl vx)]
    have h4 := translate_ptr (.mk clvl (es.set (entryIndex clvl vx)
        (.ptr (setToPointerData d) sub))) v' (setToPointerData d) sub hup hE1
      (isValid_setToPointerData d) (isPointer_setToPointerData d hdr hdw hdx)
      (by simp [PTable.level]; omega)
    rw [h4]
    exact htr
  | descend clvl es vx L d sub hlt h2 hlen hE hval hptr hsubpath ih =>
    intro t1 hrun
    have h1 : setMap (.mk clvl es) vx p L perms =
        match setMap sub vx p L perms with
        | .error e => .error e
        | .ok sub2 => .ok (.mk clvl (es.set (entryIndex clvl vx)
            (.ptr d sub2))) :=
      setMap_ptr (.mk clvl es) vx p L perms d sub hE hval hptr hlt
    rw [h1] at hrun
    cases hs : setMap sub vx p L perms with
    | error e =>
      rw [hs] at hrun
      cases hrun
    | ok sub2 =>
      rw [hs] at hrun
      simp only [] at hrun
      injection hrun with h3
      subst h3
      have hidx : entryIndex clvl v' = entryIndex clvl vx :=
        entryIndex_agree clvl hagree (by omega)
      have hE1 : (es.set (entryIndex clvl vx)
          (.ptr d sub2))[entryIndex clvl v']? = some (.ptr d sub2) := by
        rw [hidx, List.getElem?_set_self (by rw [hlen]; exact entryIndex_lt clvl vx)]
      have h4 := translate_ptr (.mk clvl (es.set (entryIndex clvl vx)
          (.ptr d sub2))) v' d sub2 hup hE1 hval hptr
        (by simp [PTable.level]; omega)
      rw [h4]
      exact ih hagree hpal sub2 hs

/-- C2 witness: on a zeroed level-0 table, installing the spec's S3
mapping `v = 0x2000_0000 → p = 0x4000_0000` (level 0, read/write) and
translating `v' = 0x2000_0FAB` yields `0x4000_0FAB`. -/
theorem page_table_round_trip_amended_witness :
    ∃ t1, setMap (.mk 0 (List.replicate 512 (.raw 0))) 0x20000000 0x40000000 0
        .readWrite = .ok t1 ∧
      translate t1 0x20000FAB =
        .ok (0x40000000 ||| (0x20000FAB &&& (1 <<< (12 + 9 * 0) - 1))) := by
  have hE : (List.replicate 512 (PTEntry.raw 0))[entryIndex 0 0x20000000]? =
      some (PTEntry.raw 0) := by
    rw [show entryIndex 0 0x20000000 = 0 from by decide]
    simp [List.getElem?_replicate]
  have hpath : MapPath (.mk 0 (List.replicate 512 (.raw 0))) 0x20000000 0 :=
    MapPath.leaf 0 (List.replicate 512 (.raw 0)) 0x20000000 0 0 rfl (by omega)
      (by simp) hE (by decide)
  have hrun : setMap (.mk 0 (List.replicate 512 (.raw 0))) 0x20000000 0x40000000 0
      .readWrite = .ok (.mk 0 ((List.replicate 512 (PTEntry.raw 0)).set
        (entryIndex 0 0x20000000)
        (.raw (setToDirectMapping 0 0x40000000 .readWrite)))) :=
    setMap_leaf (.mk 0 (List.replicate 512 (.raw 0))) 0x20000000 0x40000000
      .readWrite 0 hE (by decide)
  exact ⟨_, hrun, page_table_round_trip_amended _ 0x20000000 0x40000000 0 .readWrite _
    0x20000FAB hpath (by decide) (by decide) (by decide) (by decide) hrun⟩

end EepyOS